import Mathlib

/-!
Verification of the fastproxy HTTP header scanner and proxy session handlers.

The definitions below are a shallow embedding of the Go sources:
  - the header parser of header/header.go (Header, ParseHeaderFields, tryRead,
    readHeaders, isProxyHeader, isConnectionHeader, isContentLengthHeader,
    isTransferEncodingHeader), with bytes modelled as natural numbers;
  - the proxy session handlers of proxy.go (do, tunnelConnect, decryptConnect),
    modelled as pure functions over oracles for their I/O collaborators,
    producing an event trace.

Collaborators whose code is not available (bytebufferpool, bufio.Reader,
changeToLowerCase, Go strconv and strings helpers, net dialing, transport
forwarding) are modelled explicitly; each such definition carries a doc
comment saying what it models.
-/

/-- Byte values of an ASCII string, used to transcribe the byte-slice
constants of the Go source. -/
def strBytes (s : String) : List Nat := s.toList.map Char.toNat

/-- Errors the header scanner can produce.  In the Go source these are
errNeedMore, the wrapped io.EOF produced on an empty initial read, and
io.ErrShortBuffer produced by a fixed-size ByteBuffer write. -/
inductive HErr where
  | needMore
  | unexpectedEOF
  | shortBuffer
deriving DecidableEq, Repr

/-- Modelled from the spec: the fixed ByteBuffer of bytebufferpool (its code is
not under src).  Capacity is set at construction, a write past capacity fails
with the distinguished short-buffer error and leaves the buffer unchanged, and
the buffer never reallocates. -/
structure ByteBuffer where
  cap : Nat
  data : List Nat
deriving DecidableEq, Repr

/-- ByteBuffer.Write of bytebufferpool: append if within capacity, otherwise
fail with the short-buffer error. -/
def ByteBuffer.write (b : ByteBuffer) (p : List Nat) : Except HErr ByteBuffer :=
  if b.cap < b.data.length + p.length then .error .shortBuffer
  else .ok { b with data := b.data ++ p }

/-- ByteBuffer.Reset of bytebufferpool: drop the contents. -/
def ByteBuffer.reset (b : ByteBuffer) : ByteBuffer := { b with data := [] }

/-- Header of header/header.go: connection-close flag and the overloaded
content length (positive: declared length, -1: chunked, -2: identity). -/
structure Header where
  isConnectionClose : Bool
  contentLength : Int
deriving DecidableEq, Repr

/-- Header.Reset of header/header.go. -/
def Header.resetH (_h : Header) : Header := { isConnectionClose := false, contentLength := 0 }

/-- Header.IsConnectionClose of header/header.go. -/
def Header.IsConnectionClose (h : Header) : Bool := h.isConnectionClose

/-- Header.ContentLength of header/header.go: the stored value when positive,
otherwise 0. -/
def Header.ContentLength (h : Header) : Int :=
  if 0 < h.contentLength then h.contentLength else 0

/-- Header.IsBodyChunked of header/header.go. -/
def Header.IsBodyChunked (h : Header) : Bool := h.contentLength == -1

/-- Header.IsBodyIdentity of header/header.go. -/
def Header.IsBodyIdentity (h : Header) : Bool := h.contentLength == -2

/-- The proxyHeaders table of header/header.go. -/
def proxyHeadersList : List (List Nat) :=
  [strBytes ("Accept-Encoding"), strBytes ("Proxy-Connection"),
   strBytes ("Proxy-Authenticate"), strBytes ("Proxy-Authorization")]

/-- The connectionHeader constant of header/header.go. -/
def connectionHeaderBytes : List Nat := strBytes ("Connection")

/-- The contentLengthHeader constant of header/header.go. -/
def contentLengthHeaderBytes : List Nat := strBytes ("Content-Length")

/-- The transferEncoding constant of header/header.go. -/
def transferEncodingBytes : List Nat := strBytes ("Transfer-Encoding")

/-- isProxyHeader of header/header.go: does any entry of the proxyHeaders
table occur as a leading segment of the line. -/
def isProxyHeader (l : List Nat) : Bool :=
  proxyHeadersList.any (fun p => p.isPrefixOf l)

/-- isConnectionHeader of header/header.go. -/
def isConnectionHeader (l : List Nat) : Bool := connectionHeaderBytes.isPrefixOf l

/-- isContentLengthHeader of header/header.go. -/
def isContentLengthHeader (l : List Nat) : Bool := contentLengthHeaderBytes.isPrefixOf l

/-- isTransferEncodingHeader of header/header.go. -/
def isTransferEncodingHeader (l : List Nat) : Bool := transferEncodingBytes.isPrefixOf l

/-- Lowercase one ASCII byte, as the in-place lowering of a header line does. -/
def lowerByte (b : Nat) : Nat := if 65 ≤ b ∧ b ≤ 90 then b + 32 else b

/-- Modelled from the spec: changeToLowerCase, used by readHeaders on
Connection lines, is repository code not under src; the spec says the line is
lowercased in place.  It mutates the peeked slice, hence the scanner models
give back the mutated bytes. -/
def changeToLowerCase (l : List Nat) : List Nat := l.map lowerByte

/-- Models bytes.IndexByte: position of the first occurrence of a byte. -/
def indexOfByte (l : List Nat) (c : Nat) : Option Nat :=
  l.findIdx? (fun b => b == c)

/-- Models the ASCII part of strings.TrimSpace on the byte level (space, tab,
newline, vertical tab, form feed, carriage return).  Multi-byte Unicode white
space is not modelled; the inputs of interest are ASCII. -/
def isSpaceByte (b : Nat) : Bool :=
  b == 32 || b == 9 || b == 10 || b == 11 || b == 12 || b == 13

/-- Models strings.TrimSpace at the byte level. -/
def trimSpace (l : List Nat) : List Nat :=
  ((l.dropWhile isSpaceByte).reverse.dropWhile isSpaceByte).reverse

/-- Digits of a decimal numeral; none on an empty or non-digit input. -/
def digitsToNat : List Nat → Option Nat
  | [] => none
  | l => l.foldl (fun acc b => match acc with
      | none => none
      | some v => if 48 ≤ b ∧ b ≤ 57 then some (v * 10 + (b - 48)) else none)
      (some 0)

/-- Models strconv.ParseInt(s, 10, 64) under the discarded-error convention of
readHeaders: a syntax error yields 0 (the Go call ignores the error and 0 is
returned alongside it), a range error yields the clamped int64 value exactly
as ParseInt returns it. -/
def parseIntGo (s : List Nat) : Int :=
  match s with
  | [] => 0
  | c :: rest =>
    let neg : Bool := c == 45
    let digits : List Nat := if c == 43 || c == 45 then rest else s
    match digitsToNat digits with
    | none => 0
    | some v =>
      if neg then
        if 2 ^ 63 < v then -(2 ^ 63) else -(Int.ofNat v)
      else
        if 2 ^ 63 ≤ v then (2 ^ 63 - 1 : Int) else Int.ofNat v

/-- Models bytes.Contains: does sub occur as a contiguous segment of l. -/
def containsSub : List Nat → List Nat → Bool
  | l, sub =>
    if sub.isPrefixOf l then true
    else match l with
      | [] => false
      | _ :: rest => containsSub rest sub

/-- The byte constant for the close token searched in Connection lines. -/
def closeBytes : List Nat := strBytes ("close")

/-- The byte constant for the chunked token of Transfer-Encoding lines. -/
def chunkedBytes : List Nat := strBytes ("chunked")

/-- The byte constant for the identity token of Transfer-Encoding lines. -/
def identityBytes : List Nat := strBytes ("identity")

/-- parseThenWriteBuffer of readHeaders (header/header.go lines 111 to 155).
Given the current header state, target buffer and one raw header line, it
returns the updated header, the updated buffer, the line as left in the peeked
reader window (lowercased in place when it is a Connection line), and a write
error if emitting the line into the buffer failed. -/
def parseThenWriteBuffer (header : Header) (buffer : ByteBuffer) (rawHeaderLine : List Nat) :
    Header × ByteBuffer × List Nat × Option HErr :=
  if isConnectionHeader rawHeaderLine then
    let lowered := changeToLowerCase rawHeaderLine
    let header' :=
      if containsSub lowered closeBytes then { header with isConnectionClose := true } else header
    (header', buffer, lowered, none)
  else
    let header' :=
      if isContentLengthHeader rawHeaderLine then
        match indexOfByte rawHeaderLine 58 with
        | some lengthBytesIndex =>
          if 0 < lengthBytesIndex then
            let lengthBytes := rawHeaderLine.drop (lengthBytesIndex + 1)
            let length := parseIntGo (trimSpace lengthBytes)
            if 0 < length then { header with contentLength := length } else header
          else header
        | none => header
      else if isTransferEncodingHeader rawHeaderLine then
        if containsSub rawHeaderLine chunkedBytes then { header with contentLength := -1 }
        else if containsSub rawHeaderLine identityBytes then { header with contentLength := -2 }
        else header
      else header
    if !isProxyHeader rawHeaderLine then
      match buffer.write rawHeaderLine with
      | .ok buffer' => (header', buffer', rawHeaderLine, none)
      | .error e => (header', buffer, rawHeaderLine, some e)
    else (header', buffer, rawHeaderLine, none)

/-- Split a byte list at the first line feed, byte 10: the line including its
terminator, and the remainder.  Models the bytes.IndexByte line scan of
readHeaders. -/
def splitLine : List Nat → Option (List Nat × List Nat)
  | [] => none
  | b :: rest =>
    if b == 10 then some ([10], rest)
    else match splitLine rest with
      | none => none
      | some (line, r) => some (b :: line, r)

/-- Is a scanned line the block terminator: the conditions n plus one equal 1,
or n plus one equal 2 with a leading carriage return, of readHeaders. -/
def isEmptyLine (line : List Nat) : Bool := line == [10] || line == [13, 10]

/-- The rest-lines loop of readHeaders (header/header.go lines 173 to 192).
Scans lines, runs parseThenWriteBuffer on each, stops after processing a
terminator line.  Returns the header, the buffer, the window bytes as left in
the reader (processed lines possibly lowercased, remainder untouched), and
either the total number of bytes consumed or an error.  On an error the
buffer is reset, as in the source.  The loop carries an explicit fuel so the
recursion is structural; the wrapper below passes the byte count, which
bounds the number of lines, and when the fuel runs out the bytes are empty,
making the result coincide with the no-line-feed branch. -/
def readHeadersLoopF : Nat → Header → ByteBuffer → List Nat → Nat →
    Header × ByteBuffer × List Nat × Except HErr Nat
  | 0, header, buffer, b, _ => (header, buffer.reset, b, .error .needMore)
  | fuel + 1, header, buffer, b, n =>
    match splitLine b with
    | none => (header, buffer.reset, b, .error .needMore)
    | some (line, rest) =>
      match parseThenWriteBuffer header buffer line with
      | (h2, buf2, mline, some e) => (h2, buf2.reset, mline ++ rest, .error e)
      | (h2, buf2, mline, none) =>
        if isEmptyLine line then (h2, buf2, mline ++ rest, .ok (n + line.length))
        else
          let r := readHeadersLoopF fuel h2 buf2 rest (n + line.length)
          (r.1, r.2.1, mline ++ r.2.2.1, r.2.2.2)

def readHeadersLoop (header : Header) (buffer : ByteBuffer) (b : List Nat) (n : Nat) :
    Header × ByteBuffer × List Nat × Except HErr Nat :=
  readHeadersLoopF b.length header buffer b n

/-- readHeaders of header/header.go (lines 109 to 193): scan the buffered
window for header lines.  The first line is handled specially: an empty first
line returns immediately without touching the buffer, otherwise the buffer is
reset and the line processed, then the loop runs on the remaining lines. -/
def readHeaders (header : Header) (buf : List Nat) (buffer : ByteBuffer) :
    Header × ByteBuffer × List Nat × Except HErr Nat :=
  match splitLine buf with
  | none => (header, buffer, buf, .error .needMore)
  | some (line, rest) =>
    if isEmptyLine line then (header, buffer, buf, .ok line.length)
    else
      match parseThenWriteBuffer header buffer.reset line with
      | (h2, buf2, mline, some e) => (h2, buf2.reset, mline ++ rest, .error e)
      | (h2, buf2, mline, none) =>
        let r := readHeadersLoop h2 buf2 rest line.length
        (r.1, r.2.1, mline ++ r.2.2.1, r.2.2.2)

/-- Models the bufio.Reader that ParseHeaderFields works on: the full
underlying byte stream, the number of bytes already consumed (discarded), and
the number of bytes currently buffered ahead of the consumed position.  The
fill policy is the minimal one bufio guarantees: a Peek of n buffers at least
the minimum of n and the bytes remaining in the stream. -/
structure Reader where
  data : List Nat
  pos : Nat
  nbuf : Nat
deriving DecidableEq, Repr

/-- Number of bytes of the stream not yet consumed. -/
def Reader.remaining (r : Reader) : Nat := r.data.length - r.pos

/-- The currently buffered window, what Peek of Buffered returns. -/
def Reader.window (r : Reader) : List Nat := (r.data.drop r.pos).take r.nbuf

/-- Models bufio.Reader.Peek: fill the buffer to at least the minimum of n and
the remaining bytes, return up to n buffered bytes, and report whether fewer
than n bytes were available (in which case bufio also returns an error, io.EOF
here since the underlying stream is plain bytes). -/
def Reader.peek (r : Reader) (n : Nat) : List Nat × Reader × Bool :=
  let nb := max r.nbuf (min n r.remaining)
  (((r.data.drop r.pos).take (min n nb)), { r with nbuf := nb }, decide (r.remaining < n))

/-- Models bufio.Reader.Discard: consume n buffered bytes. -/
def Reader.discard (r : Reader) (n : Nat) : Reader :=
  { r with pos := r.pos + n, nbuf := r.nbuf - n }

/-- Store the window bytes as mutated in place by readHeaders back into the
stream (the Go scanner works directly on the peeked slice of the bufio
buffer, so lowercasing a Connection line mutates the buffered bytes). -/
def Reader.writeBack (r : Reader) (w : List Nat) : Reader :=
  { r with data := r.data.take r.pos ++ w ++ r.data.drop (r.pos + r.nbuf) }

/-- tryRead of header/header.go (lines 75 to 107): peek n bytes, failing with
the wrapped EOF when nothing at all is buffered; then run readHeaders on the
whole buffered window, write the possibly mutated window back, and on success
discard the consumed header bytes. -/
def tryRead (header : Header) (r : Reader) (buffer : ByteBuffer) (n : Nat) :
    Header × Reader × ByteBuffer × Option HErr :=
  let p := r.peek n
  if p.1.length == 0 then (header, p.2.1, buffer, some .unexpectedEOF)
  else
    let r1 := p.2.1
    let res := readHeaders header r1.window buffer
    let r2 := r1.writeBack res.2.2.1
    match res.2.2.2 with
    | .error e => (res.1, r2, res.2.1, some e)
    | .ok headersLen => (res.1, r2.discard headersLen, res.2.1, none)

/-- Outcome of the fuelled ParseHeaderFields loop: success, an error return,
or fuel exhausted while the loop is still retrying on need-more. -/
inductive PResult where
  | ok : PResult
  | err : HErr → PResult
  | diverge : PResult
deriving DecidableEq, Repr

/-- The retry loop of ParseHeaderFields (header/header.go lines 57 to 71),
made total with a fuel parameter: call tryRead; succeed on nil error, retry
with Buffered plus one on need-more, otherwise reset the buffer and return
the error. -/
def parseHeaderFieldsAux : Nat → Header → Reader → ByteBuffer → Nat →
    Header × Reader × ByteBuffer × PResult
  | 0, h, r, buf, _ => (h, r, buf, .diverge)
  | fuel + 1, h, r, buf, n =>
    match tryRead h r buf n with
    | (h2, r2, buf2, none) => (h2, r2, buf2, .ok)
    | (h2, r2, buf2, some .needMore) => parseHeaderFieldsAux fuel h2 r2 buf2 (r2.nbuf + 1)
    | (h2, r2, buf2, some e) => (h2, r2, buf2.reset, .err e)

/-- ParseHeaderFields of header/header.go: run the retry loop starting with a
peek of one byte. -/
def parseHeaderFields (header : Header) (r : Reader) (buffer : ByteBuffer) (fuel : Nat) :
    Header × Reader × ByteBuffer × PResult :=
  parseHeaderFieldsAux fuel header r buffer 1

/-- Modelled from the spec: the lines of a header block, up to and including
the terminating empty line.  A line is any bytes up to and including a line
feed; a line whose content excluding a trailing carriage return is empty
terminates the block.  Returns none when the bytes end before the terminator. -/
def blockLinesF : Nat → List Nat → Option (List (List Nat))
  | 0, _ => none
  | fuel + 1, l =>
    match splitLine l with
    | none => none
    | some (line, rest) =>
      if isEmptyLine line then some [line]
      else (blockLinesF fuel rest).map (line :: ·)

def blockLines (l : List Nat) : Option (List (List Nat)) :=
  blockLinesF l.length l

/-- Modelled from the spec: the number of header-block bytes up to and
including the terminating empty line. -/
def specHeaderBlockLen (l : List Nat) : Option Nat :=
  (blockLines l).map (fun ls => (ls.map List.length).sum)

/-- The complete lines a scan of the window visits, in order: every line up
to the first terminator line (included), stopping early where no line feed is
found. -/
def scanLinesF : Nat → List Nat → List (List Nat)
  | 0, _ => []
  | fuel + 1, l =>
    match splitLine l with
    | none => []
    | some (line, rest) =>
      if isEmptyLine line then [line]
      else line :: scanLinesF fuel rest

def scanLines (l : List Nat) : List (List Nat) :=
  scanLinesF l.length l

/-- Decomposition of a byte list into line-feed terminated lines; a trailing
fragment without a terminator forms the last line. -/
def linesOfF : Nat → List Nat → List (List Nat)
  | 0, l => if l.isEmpty then [] else [l]
  | fuel + 1, l =>
    match splitLine l with
    | none => if l.isEmpty then [] else [l]
    | some (line, rest) => line :: linesOfF fuel rest

def linesOf (l : List Nat) : List (List Nat) :=
  linesOfF l.length l

/-- A line as produced by the line scan: some content without a line feed,
terminated by one line feed. -/
def terminatedLine (l : List Nat) : Prop := ∃ c, l = c ++ [10] ∧ 10 ∉ c

/-- Does parseThenWriteBuffer emit this line into the target buffer: it is
neither a Connection line nor one of the proxy headers. -/
def emitsLine (l : List Nat) : Bool := !isConnectionHeader l && !isProxyHeader l

/-- The Content-Length value readHeaders would parse from a line: the decimal
after the first colon with surrounding white space trimmed, under the
discarded-error convention. -/
def clValue (l : List Nat) : Int :=
  match indexOfByte l 58 with
  | some i => if 0 < i then parseIntGo (trimSpace (l.drop (i + 1))) else 0
  | none => 0

/-- Does a line set a positive content length when processed. -/
def setsLength (l : List Nat) : Bool := isContentLengthHeader l && decide (0 < clValue l)

/-- Does a line set chunked framing when processed. -/
def setsChunked (l : List Nat) : Bool := isTransferEncodingHeader l && containsSub l chunkedBytes

/-- Does a line set identity framing when processed. -/
def setsIdentity (l : List Nat) : Bool :=
  isTransferEncodingHeader l && !containsSub l chunkedBytes && containsSub l identityBytes

/-- The effect of processing one line on the stored content length, as a
fold step. -/
def framingStep (c : Int) (l : List Nat) : Int :=
  if setsLength l then clValue l
  else if setsChunked l then -1
  else if setsIdentity l then -2
  else c

/-- The effect of parseThenWriteBuffer on the header state alone. -/
def lineEff (h : Header) (l : List Nat) : Header :=
  (parseThenWriteBuffer h { cap := 0, data := [] } l).1

/-- Relates a byte list to an earlier version of itself of which some bytes
may have been lowercased in place: same length, each byte either unchanged or
the lowercase image of an upper-case ASCII letter. -/
inductive Shape : List Nat → List Nat → Prop where
  | nil : Shape [] []
  | same (b : Nat) {u v : List Nat} : Shape u v → Shape (b :: u) (b :: v)
  | lower (b : Nat) {u v : List Nat} (h1 : 65 ≤ b) (h2 : b ≤ 90) :
      Shape u v → Shape ((b + 32) :: u) (b :: v)

/-- Observable actions of the proxy session handlers, used to state what a
handler did to its collaborators: writes on the client connection, token
operations on the super proxy, origin contacts, usage-counter additions, the
two tunnel forwarding directions, and the MITM phases. -/
inductive PEvent where
  | clientWrite (bs : List Nat)
  | acquireToken
  | releaseToken
  | dialOrigin
  | makeTunnel
  | outUsage (n : Nat)
  | inUsage (n : Nat)
  | superOutUsage (n : Nat)
  | superInUsage (n : Nat)
  | clientToTunnel (n : Nat)
  | tunnelToClient (n : Nat)
  | hijackServe (n : Nat)
  | respToClient (n : Nat)
  | readDecryptedRequest
  | runDo
deriving DecidableEq

/-- Errors the session handlers return, named after the error messages of
proxy.go. -/
inductive PErr where
  | sessionUnavailable
  | dialFailed
  | clientHandshake
  | forwardWrite
  | forwardRead
  | certSign
  | noSNI
  | tlsHandshake
  | readRequestFailed
  | clientDoFailed
  | hijackFailed
deriving DecidableEq

/-- The httpTunnelMadeOk constant of proxy.go. -/
def httpTunnelMadeOkBytes : List Nat := strBytes ("HTTP/1.1 200 OK\r\n\r\n")

/-- The httpTunnelMadeError constant of proxy.go. -/
def httpTunnelMadeErrorBytes : List Nat := strBytes ("HTTP/1.1 501 Bad Gateway\r\n\r\n")

/-- Oracle inputs of the tunnelConnect model: the outcomes of its
collaborators, whose code is outside the scanner (HostInfo parsing result,
URLProxy routing decision, dial or MakeTunnel success, write success of the
200 reply, usage-sink presence, the byte counts and errors of the two
transport.Forward calls). -/
structure TunnelInput where
  parsedHostWithPort : String
  routed : Bool
  dialOk : Bool
  okWriteOk : Bool
  usagePresent : Bool
  outBytes : Nat
  inBytes : Nat
  fwdWriteErr : Bool
  fwdReadErr : Bool
deriving DecidableEq

/-- The deferred usage flush of tunnelConnect (proxy.go lines 236 to 247):
proxy usage additions when the usage sink is present, super-proxy usage
additions when routed. -/
def usageFlush (present routed : Bool) (pin pout spin spout : Nat) : List PEvent :=
  (if present then [PEvent.inUsage pin, PEvent.outUsage pout] else []) ++
  (if routed then [PEvent.superOutUsage spout, PEvent.superInUsage spin] else [])

/-- Model of tunnelConnect (proxy.go lines 197 to 288), the raw CONNECT
tunnel path: empty parsed host returns session-unavailable before any
effect; otherwise a token is acquired when routed, the origin is dialled
directly or through MakeTunnel; on dial failure the 501 reply is written
(its own write error ignored), the 501 size is accounted as outgoing, and
the handler ends with an error; on success the 200 reply is written before
the two forwarders run, and the tunnelled byte counts are accounted in the
deferred flush. -/
def tunnelConnect (i : TunnelInput) : List PEvent × Option PErr :=
  if i.parsedHostWithPort.length == 0 then ([], some .sessionUnavailable)
  else
    let acquire := if i.routed then [PEvent.acquireToken] else []
    let release := if i.routed then [PEvent.releaseToken] else []
    let dialEv := if i.routed then PEvent.makeTunnel else PEvent.dialOrigin
    if !i.dialOk then
      (acquire ++ [dialEv, PEvent.clientWrite httpTunnelMadeErrorBytes] ++
        usageFlush i.usagePresent i.routed 0 httpTunnelMadeErrorBytes.length 0 0 ++ release,
       some .dialFailed)
    else if !i.okWriteOk then
      (acquire ++ [dialEv, PEvent.clientWrite httpTunnelMadeOkBytes] ++
        usageFlush i.usagePresent i.routed 0 0 0 0 ++ release,
       some .clientHandshake)
    else
      let evs := acquire ++ [dialEv, PEvent.clientWrite httpTunnelMadeOkBytes,
        PEvent.clientToTunnel i.outBytes, PEvent.tunnelToClient i.inBytes] ++
        usageFlush i.usagePresent i.routed i.outBytes
          (httpTunnelMadeOkBytes.length + i.inBytes) i.inBytes i.outBytes ++ release
      if i.fwdWriteErr then (evs, some .forwardWrite)
      else if i.fwdReadErr then (evs, some .forwardRead)
      else (evs, none)

/-- Oracle inputs of the do model: the hijacked response (read size, response
size, error) when the hijacker supplies one, the parsed host, the routing
decision, and the outcome of client.Do. -/
structure DoInput where
  hijacked : Option (Nat × Nat × Bool)
  hostWithPort : String
  routed : Bool
  reqReadNum : Nat
  reqWriteNum : Nat
  respNum : Nat
  clientDoErr : Bool
deriving DecidableEq

/-- Model of do (proxy.go lines 100 to 163), the plain-HTTP path: when the
hijacker supplies a response reader, that response is served and accounted
without consulting the host; otherwise an empty parsed host returns
session-unavailable before any token, dial, or client write; otherwise the
exchange runs through client.Do with the usage flush and token release.
The resp.WriteTo call that precedes this logic binds the response to the
client writer and is modelled from the spec as writing no wire bytes. -/
def doHandler (i : DoInput) : List PEvent × Option PErr :=
  match i.hijacked with
  | some (rn, wn, bad) =>
    ([PEvent.hijackServe wn, PEvent.inUsage rn, PEvent.outUsage wn],
     if bad then some .hijackFailed else none)
  | none =>
    if i.hostWithPort.length == 0 then ([], some .sessionUnavailable)
    else
      let acquire := if i.routed then [PEvent.acquireToken] else []
      let release := if i.routed then [PEvent.releaseToken] else []
      let evs := acquire ++ [PEvent.dialOrigin, PEvent.respToClient i.respNum,
        PEvent.inUsage i.reqReadNum, PEvent.outUsage i.respNum] ++
        (if i.routed then [PEvent.superInUsage i.respNum, PEvent.superOutUsage i.reqWriteNum]
         else []) ++ release
      (evs, if i.clientDoErr then some .clientDoFailed else none)

/-- Oracle inputs of the decryptConnect model: certificate signing success,
usage-sink presence, write success of the 200 reply, TLS handshake success,
the server name recorded by the GetCertificate callback during the
handshake, the result of reading the decrypted request, and the outcome of
the nested do call. -/
structure DecryptInput where
  signOk : Bool
  usagePresent : Bool
  okWriteOk : Bool
  handshakeOk : Bool
  sni : String
  readReq : Option Nat
  doErr : Option PErr
deriving DecidableEq

/-- Model of decryptConnect (proxy.go lines 291 to 367), the MITM path: on
certificate signing failure the 501 reply is written, accounted, and the
handler fails; otherwise the 200 reply is written (a write failure aborts
the handshake, leaving the recorded server name empty, so the no-sni error
is returned); after the handshake the recorded server name is checked and,
when empty, the no-sni error replaces any handshake error before the
decrypted request is ever read; only with a server name present does the
handler read the decrypted request and hand over to do. -/
def decryptConnect (i : DecryptInput) : List PEvent × Option PErr :=
  if !i.signOk then
    ([PEvent.clientWrite httpTunnelMadeErrorBytes] ++
      (if i.usagePresent then [PEvent.outUsage httpTunnelMadeErrorBytes.length] else []),
     some .certSign)
  else
    if !i.okWriteOk then
      ([PEvent.clientWrite httpTunnelMadeOkBytes], some .noSNI)
    else
      let hsEvents := [PEvent.clientWrite httpTunnelMadeOkBytes] ++
        (if i.usagePresent then [PEvent.outUsage httpTunnelMadeOkBytes.length] else [])
      if !i.handshakeOk then
        (hsEvents, if i.sni.length == 0 then some .noSNI else some .tlsHandshake)
      else if i.sni.length == 0 then (hsEvents, some .noSNI)
      else
        match i.readReq with
        | none => (hsEvents ++ [PEvent.readDecryptedRequest], some .readRequestFailed)
        | some rn =>
          (hsEvents ++ [PEvent.readDecryptedRequest] ++
            (if i.usagePresent then [PEvent.inUsage rn] else []) ++ [PEvent.runDo], i.doErr)

/-- The client-connection writes among a list of events, in order. -/
def clientWrites (evs : List PEvent) : List (List Nat) :=
  evs.filterMap (fun e => match e with | .clientWrite bs => some bs | _ => none)

/-- Total bytes added to the outgoing counter of the proxy usage sink. -/
def outUsageTotal (evs : List PEvent) : Nat :=
  (evs.map (fun e => match e with | .outUsage n => n | _ => 0)).sum

/-- Is an event a transfer of tunnelled bytes in either direction. -/
def isTunnelEvent (e : PEvent) : Bool :=
  match e with
  | .clientToTunnel _ => true
  | .tunnelToClient _ => true
  | _ => false

/-- Is an event a write on the client connection. -/
def isClientWrite (e : PEvent) : Bool :=
  match e with
  | .clientWrite _ => true
  | _ => false

/-- Is an event a contact of the origin server (a direct dial or an upstream
tunnel). -/
def contactsOrigin (e : PEvent) : Bool :=
  match e with
  | .dialOrigin => true
  | .makeTunnel => true
  | _ => false

theorem splitLine_eq (b : List Nat) :
    ∀ line rest, splitLine b = some (line, rest) → b = line ++ rest := by
  induction b with
  | nil => intro line rest h; simp [splitLine] at h
  | cons x xs ih =>
    intro line rest h
    simp only [splitLine] at h
    by_cases hx : x = 10
    · simp [hx] at h
      simp [← h.1, ← h.2, hx]
    · simp [hx] at h
      cases hsplit : splitLine xs with
      | none => rw [hsplit] at h; simp at h
      | some p =>
        rw [hsplit] at h
        simp at h
        rcases h with ⟨h1, h2⟩
        have := ih p.1 p.2 (by rw [hsplit])
        subst h2
        simp [← h1, this]

theorem splitLine_rest_lt (b line rest : List Nat) (h : splitLine b = some (line, rest)) :
    rest.length < b.length := by
  have hb := splitLine_eq b line rest h
  have hne : line ≠ [] := by
    intro hl
    subst hl
    cases b with
    | nil => simp [splitLine] at h
    | cons x xs =>
      simp only [splitLine] at h
      by_cases hx : x = 10
      · simp [hx] at h
      · simp [hx] at h
        cases hsplit : splitLine xs with
        | none => rw [hsplit] at h; simp at h
        | some p => rw [hsplit] at h; simp at h
  rw [hb]
  simp only [List.length_append]
  have : 0 < line.length := List.length_pos.mpr hne
  omega

theorem blockLinesF_irrel (f1 : Nat) :
    ∀ f2 l, l.length ≤ f1 → l.length ≤ f2 → blockLinesF f1 l = blockLinesF f2 l := by
  induction f1 with
  | zero =>
    intro f2 l h1 h2
    have hl : l = [] := List.length_eq_zero.mp (Nat.le_zero.mp h1)
    subst hl
    cases f2 with
    | zero => rfl
    | succ k => simp [blockLinesF, splitLine]
  | succ f1 ih =>
    intro f2 l h1 h2
    cases f2 with
    | zero =>
      have hl : l = [] := List.length_eq_zero.mp (Nat.le_zero.mp h2)
      subst hl
      simp [blockLinesF, splitLine]
    | succ f2 =>
      simp only [blockLinesF]
      cases hsl : splitLine l with
      | none => rfl
      | some p =>
        obtain ⟨line, rest⟩ := p
        have hlt := splitLine_rest_lt l line rest hsl
        by_cases he : isEmptyLine line = true
        · simp [he]
        · simp only [he, Bool.false_eq_true, if_false]
          rw [ih f2 rest (by omega) (by omega)]

theorem scanLinesF_irrel (f1 : Nat) :
    ∀ f2 l, l.length ≤ f1 → l.length ≤ f2 → scanLinesF f1 l = scanLinesF f2 l := by
  induction f1 with
  | zero =>
    intro f2 l h1 h2
    have hl : l = [] := List.length_eq_zero.mp (Nat.le_zero.mp h1)
    subst hl
    cases f2 with
    | zero => rfl
    | succ k => simp [scanLinesF, splitLine]
  | succ f1 ih =>
    intro f2 l h1 h2
    cases f2 with
    | zero =>
      have hl : l = [] := List.length_eq_zero.mp (Nat.le_zero.mp h2)
      subst hl
      simp [scanLinesF, splitLine]
    | succ f2 =>
      simp only [scanLinesF]
      cases hsl : splitLine l with
      | none => rfl
      | some p =>
        obtain ⟨line, rest⟩ := p
        have hlt := splitLine_rest_lt l line rest hsl
        by_cases he : isEmptyLine line = true
        · simp [he]
        · simp only [he, Bool.false_eq_true, if_false]
          rw [ih f2 rest (by omega) (by omega)]

theorem linesOfF_irrel (f1 : Nat) :
    ∀ f2 l, l.length ≤ f1 → l.length ≤ f2 → linesOfF f1 l = linesOfF f2 l := by
  induction f1 with
  | zero =>
    intro f2 l h1 h2
    have hl : l = [] := List.length_eq_zero.mp (Nat.le_zero.mp h1)
    subst hl
    cases f2 with
    | zero => rfl
    | succ k => simp [linesOfF, splitLine]
  | succ f1 ih =>
    intro f2 l h1 h2
    cases f2 with
    | zero =>
      have hl : l = [] := List.length_eq_zero.mp (Nat.le_zero.mp h2)
      subst hl
      simp [linesOfF, splitLine]
    | succ f2 =>
      simp only [linesOfF]
      cases hsl : splitLine l with
      | none => rfl
      | some p =>
        obtain ⟨line, rest⟩ := p
        have hlt := splitLine_rest_lt l line rest hsl
        exact congrArg (fun t => line :: t) (ih f2 rest (by omega) (by omega))

theorem readHeadersLoopF_irrel (f1 : Nat) :
    ∀ f2 h buf b n, b.length ≤ f1 → b.length ≤ f2 →
      readHeadersLoopF f1 h buf b n = readHeadersLoopF f2 h buf b n := by
  induction f1 with
  | zero =>
    intro f2 h buf b n h1 h2
    have hb : b = [] := List.length_eq_zero.mp (Nat.le_zero.mp h1)
    subst hb
    cases f2 with
    | zero => rfl
    | succ k => simp [readHeadersLoopF, splitLine]
  | succ f1 ih =>
    intro f2 h buf b n h1 h2
    cases f2 with
    | zero =>
      have hb : b = [] := List.length_eq_zero.mp (Nat.le_zero.mp h2)
      subst hb
      simp [readHeadersLoopF, splitLine]
    | succ f2 =>
      simp only [readHeadersLoopF]
      cases hsl : splitLine b with
      | none => rfl
      | some p =>
        obtain ⟨line, rest⟩ := p
        have hlt := splitLine_rest_lt b line rest hsl
        cases hpt : parseThenWriteBuffer h buf line with
        | mk h2' t =>
        obtain ⟨buf2, mline, eres⟩ := t
        simp only [hpt]
        cases eres with
        | some e => rfl
        | none =>
          by_cases he : isEmptyLine line = true
          · simp [he]
          · have hr := ih f2 h2' buf2 rest (n + line.length) (by omega) (by omega)
            simp [he, hr]

theorem blockLines_eq_none (l : List Nat) (hsl : splitLine l = none) :
    blockLines l = none := by
  unfold blockLines
  cases hk : l.length with
  | zero => rfl
  | succ k => simp [blockLinesF, hsl]

theorem blockLines_eq_some (l line rest : List Nat) (hsl : splitLine l = some (line, rest)) :
    blockLines l =
      if isEmptyLine line then some [line] else (blockLines rest).map (line :: ·) := by
  cases l with
  | nil => simp [splitLine] at hsl
  | cons x xs =>
    unfold blockLines
    simp only [List.length_cons, blockLinesF, hsl]
    by_cases he : isEmptyLine line = true
    · simp [he]
    · simp only [he, Bool.false_eq_true, if_false]
      have hlt := splitLine_rest_lt (x :: xs) line rest hsl
      simp only [List.length_cons] at hlt
      rw [blockLinesF_irrel xs.length rest.length rest (by omega) (Nat.le_refl _)]

theorem scanLines_eq_some (l line rest : List Nat) (hsl : splitLine l = some (line, rest)) :
    scanLines l = if isEmptyLine line then [line] else line :: scanLines rest := by
  cases l with
  | nil => simp [splitLine] at hsl
  | cons x xs =>
    unfold scanLines
    simp only [List.length_cons, scanLinesF, hsl]
    by_cases he : isEmptyLine line = true
    · simp [he]
    · simp only [he, Bool.false_eq_true, if_false]
      have hlt := splitLine_rest_lt (x :: xs) line rest hsl
      simp only [List.length_cons] at hlt
      rw [scanLinesF_irrel xs.length rest.length rest (by omega) (Nat.le_refl _)]

theorem scanLines_eq_none (l : List Nat) (hsl : splitLine l = none) : scanLines l = [] := by
  unfold scanLines
  cases hk : l.length with
  | zero => rfl
  | succ k => simp [scanLinesF, hsl]

theorem linesOf_eq_none (l : List Nat) (hsl : splitLine l = none) :
    linesOf l = if l.isEmpty then [] else [l] := by
  unfold linesOf
  cases hk : l.length with
  | zero => rfl
  | succ k => simp [linesOfF, hsl]

theorem linesOf_eq_some (l line rest : List Nat) (hsl : splitLine l = some (line, rest)) :
    linesOf l = line :: linesOf rest := by
  cases l with
  | nil => simp [splitLine] at hsl
  | cons x xs =>
    unfold linesOf
    simp only [List.length_cons, linesOfF, hsl]
    have hlt := splitLine_rest_lt (x :: xs) line rest hsl
    simp only [List.length_cons] at hlt
    rw [linesOfF_irrel xs.length rest.length rest (by omega) (Nat.le_refl _)]

theorem splitLine_induction (P : List Nat → Prop)
    (base : ∀ l, splitLine l = none → P l)
    (empty : ∀ l line rest, splitLine l = some (line, rest) → isEmptyLine line = true → P l)
    (step : ∀ l line rest, splitLine l = some (line, rest) → isEmptyLine line = false →
      P rest → P l) :
    ∀ l, P l := by
  have key : ∀ n l, l.length ≤ n → P l := by
    intro n
    induction n with
    | zero =>
      intro l hl
      have hnil : l = [] := List.length_eq_zero.mp (Nat.le_zero.mp hl)
      subst hnil
      exact base [] rfl
    | succ n ih =>
      intro l hl
      cases hsl : splitLine l with
      | none => exact base l hsl
      | some p =>
        by_cases he : isEmptyLine p.1 = true
        · exact empty l p.1 p.2 (by rw [hsl]) he
        · have hlt := splitLine_rest_lt l p.1 p.2 (by rw [hsl])
          exact step l p.1 p.2 (by rw [hsl]) (by simpa using he) (ih p.2 (by omega))
  exact fun l => key l.length l (Nat.le_refl _)

theorem splitLine_line_shape (b : List Nat) :
    ∀ line rest, splitLine b = some (line, rest) → terminatedLine line := by
  induction b with
  | nil => intro line rest h; simp [splitLine] at h
  | cons x xs ih =>
    intro line rest h
    simp only [splitLine] at h
    by_cases hx : x = 10
    · simp [hx] at h
      exact ⟨[], by simp [← h.1], by simp⟩
    · simp [hx] at h
      cases hsplit : splitLine xs with
      | none => rw [hsplit] at h; simp at h
      | some p =>
        rw [hsplit] at h
        simp at h
        obtain ⟨c, hc, hmem⟩ := ih p.1 p.2 (by rw [hsplit])
        refine ⟨x :: c, ?_, ?_⟩
        · simp [← h.1, hc]
        · simp [hmem, hx]
          intro hcon
          exact hx hcon.symm

theorem splitLine_none_no_lf (b : List Nat) (h : splitLine b = none) : 10 ∉ b := by
  induction b with
  | nil => simp
  | cons x xs ih =>
    simp only [splitLine] at h
    by_cases hx : x = 10
    · simp [hx] at h
    · simp [hx] at h
      cases hsplit : splitLine xs with
      | none => simp [hx, Ne.symm hx, ih hsplit]
      | some p => rw [hsplit] at h; simp at h

theorem splitLine_of_terminated (c rest : List Nat) (hno : 10 ∉ c) :
    splitLine (c ++ [10] ++ rest) = some (c ++ [10], rest) := by
  induction c with
  | nil => simp [splitLine]
  | cons x xs ih =>
    have hx : x ≠ 10 := by intro hh; exact hno (by simp [hh])
    have hxs : 10 ∉ xs := by intro hh; exact hno (by simp [hh])
    simp only [List.cons_append, splitLine, hx]
    simp only [List.append_eq]
    rw [ih hxs]
    simp [hx]

theorem splitLine_append (b line rest t : List Nat) (h : splitLine b = some (line, rest)) :
    splitLine (b ++ t) = some (line, rest ++ t) := by
  obtain ⟨c, hc, hno⟩ := splitLine_line_shape b line rest h
  have hb := splitLine_eq b line rest h
  subst hc
  rw [hb]
  have h1 : c ++ [10] ++ rest ++ t = c ++ [10] ++ (rest ++ t) := by simp
  rw [h1, splitLine_of_terminated c (rest ++ t) hno]

theorem blockLines_eq_scan (l : List Nat) :
    ∀ ls, blockLines l = some ls → ls = scanLines l := by
  induction l using splitLine_induction with
  | base l hsl => intro ls h; rw [blockLines_eq_none l hsl] at h; simp at h
  | empty l line rest hsl he =>
    intro ls h
    rw [blockLines_eq_some l line rest hsl] at h
    rw [scanLines_eq_some l line rest hsl]
    simp [he] at h ⊢
    exact h.symm
  | step l line rest hsl he ih =>
    intro ls h
    rw [blockLines_eq_some l line rest hsl] at h
    rw [scanLines_eq_some l line rest hsl]
    simp only [he, Bool.false_eq_true, if_false] at h ⊢
    cases hbl : blockLines rest with
    | none => rw [hbl] at h; simp at h
    | some ls2 =>
      rw [hbl] at h
      simp at h
      rw [← h, ih ls2 hbl]

theorem blockLines_append (l : List Nat) :
    ∀ ls t, blockLines l = some ls → blockLines (l ++ t) = some ls := by
  induction l using splitLine_induction with
  | base l hsl => intro ls t h; rw [blockLines_eq_none l hsl] at h; simp at h
  | empty l line rest hsl he =>
    intro ls t h
    rw [blockLines_eq_some l line rest hsl] at h
    rw [blockLines_eq_some (l ++ t) line (rest ++ t) (splitLine_append l line rest t hsl)]
    simp [he] at h ⊢
    exact h
  | step l line rest hsl he ih =>
    intro ls t h
    rw [blockLines_eq_some l line rest hsl] at h
    rw [blockLines_eq_some (l ++ t) line (rest ++ t) (splitLine_append l line rest t hsl)]
    simp only [he, Bool.false_eq_true, if_false] at h ⊢
    cases hbl : blockLines rest with
    | none => rw [hbl] at h; simp at h
    | some ls2 =>
      rw [hbl] at h
      rw [ih ls2 t hbl]
      exact h

theorem blockLines_flatten (l : List Nat) :
    ∀ ls, blockLines l = some ls → ∃ rest, l = ls.flatten ++ rest := by
  induction l using splitLine_induction with
  | base l hsl => intro ls h; rw [blockLines_eq_none l hsl] at h; simp at h
  | empty l line rest hsl he =>
    intro ls h
    rw [blockLines_eq_some l line rest hsl] at h
    simp [he] at h
    refine ⟨rest, ?_⟩
    rw [← h]
    simpa using splitLine_eq l line rest hsl
  | step l line rest hsl he ih =>
    intro ls h
    rw [blockLines_eq_some l line rest hsl] at h
    simp only [he, Bool.false_eq_true, if_false] at h
    cases hbl : blockLines rest with
    | none => rw [hbl] at h; simp at h
    | some ls2 =>
      rw [hbl] at h
      simp at h
      obtain ⟨r2, hr2⟩ := ih ls2 hbl
      refine ⟨r2, ?_⟩
      rw [← h]
      simp only [List.flatten_cons, List.append_assoc]
      rw [← hr2]
      exact splitLine_eq l line rest hsl

theorem blockLines_terminated (l : List Nat) :
    ∀ ls, blockLines l = some ls → ∀ x ∈ ls, terminatedLine x := by
  induction l using splitLine_induction with
  | base l hsl => intro ls h; rw [blockLines_eq_none l hsl] at h; simp at h
  | empty l line rest hsl he =>
    intro ls h x hx
    rw [blockLines_eq_some l line rest hsl] at h
    simp [he] at h
    rw [← h] at hx
    simp at hx
    rw [hx]
    exact splitLine_line_shape l line rest hsl
  | step l line rest hsl he ih =>
    intro ls h x hx
    rw [blockLines_eq_some l line rest hsl] at h
    simp only [he, Bool.false_eq_true, if_false] at h
    cases hbl : blockLines rest with
    | none => rw [hbl] at h; simp at h
    | some ls2 =>
      rw [hbl] at h
      simp at h
      rw [← h] at hx
      rcases List.mem_cons.mp hx with hx | hx
      · rw [hx]; exact splitLine_line_shape l line rest hsl
      · exact ih ls2 hbl x hx

theorem blockLines_take_eq (r : List Nat) (bls : List (List Nat)) (k : Nat)
    (hbl : blockLines r = some bls) :
    ∀ ls, blockLines (r.take k) = some ls → ls = bls := by
  intro ls h
  have h2 := blockLines_append (r.take k) ls (r.drop k) h
  rw [List.take_append_drop] at h2
  rw [hbl] at h2
  simpa using h2.symm

theorem splitLine_take (r : List Nat) :
    ∀ k line rest, splitLine (r.take k) = some (line, rest) →
      ∃ restR, splitLine r = some (line, restR) ∧ rest = restR.take (k - line.length) := by
  induction r with
  | nil => intro k line rest h; simp [splitLine] at h
  | cons x xs ih =>
    intro k line rest h
    cases k with
    | zero => simp [splitLine] at h
    | succ k =>
      rw [List.take_succ_cons] at h
      by_cases hx : x = 10
      · subst hx
        simp only [splitLine] at h
        simp at h
        obtain ⟨h1, h2⟩ := h
        refine ⟨xs, ?_, ?_⟩
        · simp only [splitLine]; simp [← h1]
        · rw [← h2, ← h1]; simp
      · simp only [splitLine] at h
        simp only [show (x == 10) = false by simp [hx]] at h
        cases hsp : splitLine (xs.take k) with
        | none => rw [hsp] at h; simp at h
        | some p =>
          rw [hsp] at h
          simp at h
          obtain ⟨restR, hr1, hr2⟩ := ih k p.1 p.2 (by rw [hsp])
          refine ⟨restR, ?_, ?_⟩
          · simp only [splitLine]
            simp only [show (x == 10) = false by simp [hx]]
            rw [hr1]
            simp [← h.1]
          · rw [← h.2, hr2, ← h.1]
            simp only [List.length_cons]
            congr 1
            omega

theorem scanLines_take_mem_aux (n : Nat) :
    ∀ r : List Nat, r.length ≤ n → ∀ bls k x, blockLines r = some bls →
      x ∈ scanLines (r.take k) → x ∈ bls := by
  induction n with
  | zero =>
    intro r hr bls k x hbl hmem
    have : r = [] := List.length_eq_zero.mp (Nat.le_zero.mp hr)
    subst this
    rw [blockLines_eq_none [] rfl] at hbl
    simp at hbl
  | succ n ih =>
    intro r hr bls k x hbl hmem
    cases hsp : splitLine (r.take k) with
    | none => rw [scanLines_eq_none (r.take k) hsp] at hmem; simp at hmem
    | some p =>
      rw [scanLines_eq_some (r.take k) p.1 p.2 (by rw [hsp])] at hmem
      obtain ⟨restR, hr1, hr2⟩ := splitLine_take r k p.1 p.2 (by rw [hsp])
      rw [blockLines_eq_some r p.1 restR hr1] at hbl
      by_cases he : isEmptyLine p.1 = true
      · simp [he] at hmem hbl
        rw [hmem, ← hbl]
        simp
      · simp only [he] at hmem hbl
        simp at hmem
        cases hbl2 : blockLines restR with
        | none => rw [hbl2] at hbl; simp at hbl
        | some bls2 =>
          rw [hbl2] at hbl
          simp at hbl
          rcases hmem with hmem | hmem
          · rw [hmem, ← hbl]; simp
          · have hlen : restR.length ≤ n := by
              have := splitLine_rest_lt r p.1 restR hr1
              omega
            have hx := ih restR hlen bls2 (k - p.1.length) x hbl2 (by rw [← hr2]; exact hmem)
            rw [← hbl]
            simp [hx]

theorem scanLines_take_mem (r : List Nat) (bls : List (List Nat)) (k : Nat) (x : List Nat)
    (hbl : blockLines r = some bls) (hmem : x ∈ scanLines (r.take k)) : x ∈ bls :=
  scanLines_take_mem_aux r.length r (Nat.le_refl _) bls k x hbl hmem

theorem blockLines_len_bound (l : List Nat) (ls : List (List Nat))
    (h : blockLines l = some ls) : ((ls.map List.length).sum) ≤ l.length := by
  obtain ⟨rest, hrest⟩ := blockLines_flatten l ls h
  have : l.length = ls.flatten.length + rest.length := by rw [hrest]; simp
  rw [List.length_flatten] at this
  omega

theorem blockLines_head_not_empty (l : List Nat) (l1 l2 : List Nat) (ls : List (List Nat))
    (h : blockLines l = some (l1 :: l2 :: ls)) : isEmptyLine l1 = false := by
  cases hsp : splitLine l with
  | none => rw [blockLines_eq_none l hsp] at h; simp at h
  | some p =>
    rw [blockLines_eq_some l p.1 p.2 (by rw [hsp])] at h
    by_cases he : isEmptyLine p.1 = true
    · simp [he] at h
    · simp only [he, Bool.false_eq_true, if_false] at h
      cases hbl : blockLines p.2 with
      | none => rw [hbl] at h; simp at h
      | some bls2 =>
        rw [hbl] at h
        simp at h
        rw [← h.1]
        simpa using he

theorem linesOf_flatten (ls : List (List Nat)) (h : ∀ l ∈ ls, terminatedLine l) :
    linesOf ls.flatten = ls := by
  induction ls with
  | nil => rfl
  | cons x xs ih =>
    obtain ⟨c, hc, hno⟩ := h x (by simp)
    have hsp : splitLine (x ++ xs.flatten) = some (x, xs.flatten) := by
      rw [hc]
      simpa using splitLine_of_terminated c xs.flatten hno
    rw [List.flatten_cons, linesOf_eq_some (x ++ xs.flatten) x xs.flatten hsp]
    rw [ih (fun l hl => h l (by simp [hl]))]

theorem shape_refl (l : List Nat) : Shape l l := by
  induction l with
  | nil => exact .nil
  | cons x xs ih => exact .same x ih

theorem shape_append {u1 v1 u2 v2 : List Nat} (h1 : Shape u1 v1) (h2 : Shape u2 v2) :
    Shape (u1 ++ u2) (v1 ++ v2) := by
  induction h1 with
  | nil => simpa using h2
  | same b _ ih => exact .same b ih
  | lower b hb1 hb2 _ ih => exact .lower b hb1 hb2 ih

theorem shape_length {u v : List Nat} (h : Shape u v) : u.length = v.length := by
  induction h with
  | nil => rfl
  | same b _ ih => simpa using ih
  | lower b _ _ _ ih => simpa using ih

theorem shape_trans {u v w : List Nat} (h1 : Shape u v) (h2 : Shape v w) : Shape u w := by
  induction h1 generalizing w with
  | nil =>
    cases h2
    exact .nil
  | same b huv ih =>
    cases h2 with
    | same _ h => exact .same _ (ih h)
    | lower c hc1 hc2 h => exact .lower c hc1 hc2 (ih h)
  | lower b hb1 hb2 huv ih =>
    cases h2 with
    | same _ h => exact .lower b hb1 hb2 (ih h)
    | lower c hc1 hc2 h =>
      exfalso
      omega

theorem shape_drop {u v : List Nat} (h : Shape u v) : ∀ k, Shape (u.drop k) (v.drop k) := by
  induction h with
  | nil => intro k; simpa using Shape.nil
  | same b hs ih =>
    intro k
    cases k with
    | zero => exact .same b hs
    | succ k => simpa using ih k
  | lower b hb1 hb2 hs ih =>
    intro k
    cases k with
    | zero => exact .lower b hb1 hb2 hs
    | succ k => simpa using ih k

theorem shape_lowerLine (l : List Nat) : Shape (changeToLowerCase l) l := by
  induction l with
  | nil => exact .nil
  | cons x xs ih =>
    by_cases hx : 65 ≤ x ∧ x ≤ 90
    · have : lowerByte x = x + 32 := by simp [lowerByte, hx]
      simpa [changeToLowerCase, this] using Shape.lower x hx.1 hx.2 ih
    · have : lowerByte x = x := by simp [lowerByte, hx]
      simpa [changeToLowerCase, this] using Shape.same x ih

theorem splitLine_shape_none {u v : List Nat} (h : Shape u v) :
    splitLine v = none → splitLine u = none := by
  induction h with
  | nil => intro _; rfl
  | same b hs ih =>
    rename_i u1 v1
    intro hv
    simp only [splitLine] at hv ⊢
    by_cases hb : b = 10
    · simp [hb] at hv
    · simp only [show (b == 10) = false by simp [hb], Bool.false_eq_true, if_false] at hv ⊢
      cases hsv : splitLine v1 with
      | none => rw [ih hsv]
      | some p => rw [hsv] at hv; simp at hv
  | lower b hb1 hb2 hs ih =>
    rename_i u1 v1
    intro hv
    simp only [splitLine] at hv ⊢
    have hb : b ≠ 10 := by omega
    have hb32 : b + 32 ≠ 10 := by omega
    simp only [show (b == 10) = false by simp [hb], Bool.false_eq_true, if_false] at hv
    simp only [show (b + 32 == 10) = false by simp [hb32], Bool.false_eq_true, if_false]
    cases hsv : splitLine v1 with
    | none => rw [ih hsv]
    | some p => rw [hsv] at hv; simp at hv

theorem splitLine_shape_some {u v : List Nat} (h : Shape u v) :
    ∀ lv rv, splitLine v = some (lv, rv) →
      ∃ lu ru, splitLine u = some (lu, ru) ∧ Shape lu lv ∧ Shape ru rv := by
  induction h with
  | nil => intro lv rv hv; simp [splitLine] at hv
  | same b hs ih =>
    rename_i u1 v1
    intro lv rv hv
    simp only [splitLine] at hv ⊢
    by_cases hb : b = 10
    · simp [hb] at hv ⊢
      exact ⟨[10], u1, ⟨rfl, rfl⟩, by rw [← hv.1]; exact .same 10 .nil, by rw [← hv.2]; exact hs⟩
    · simp only [show (b == 10) = false by simp [hb], Bool.false_eq_true, if_false] at hv ⊢
      cases hsv : splitLine v1 with
      | none => rw [hsv] at hv; simp at hv
      | some p =>
        rw [hsv] at hv
        simp at hv
        obtain ⟨lu, ru, h1, h2, h3⟩ := ih p.1 p.2 (by rw [hsv])
        rw [h1]
        exact ⟨b :: lu, ru, rfl, by rw [← hv.1]; exact .same b h2, by rw [← hv.2]; exact h3⟩
  | lower b hb1 hb2 hs ih =>
    rename_i u1 v1
    intro lv rv hv
    simp only [splitLine] at hv ⊢
    have hb : b ≠ 10 := by omega
    have hb32 : b + 32 ≠ 10 := by omega
    simp only [show (b == 10) = false by simp [hb], Bool.false_eq_true, if_false] at hv
    simp only [show (b + 32 == 10) = false by simp [hb32], Bool.false_eq_true, if_false]
    cases hsv : splitLine v1 with
    | none => rw [hsv] at hv; simp at hv
    | some p =>
      rw [hsv] at hv
      simp at hv
      obtain ⟨lu, ru, h1, h2, h3⟩ := ih p.1 p.2 (by rw [hsv])
      rw [h1]
      exact ⟨(b + 32) :: lu, ru, rfl, by rw [← hv.1]; exact .lower b hb1 hb2 h2,
        by rw [← hv.2]; exact h3⟩

theorem shape_of_emptyLine {u v : List Nat} (h : Shape u v) (he : isEmptyLine v = true) :
    u = v := by
  simp only [isEmptyLine] at he
  rcases Bool.or_eq_true_iff.mp he with h1 | h1
  · have hv : v = [10] := by simpa using h1
    subst hv
    cases h with
    | same b hs =>
      cases hs
      rfl
    | lower b hb1 hb2 hs => omega
  · have hv : v = [13, 10] := by simpa using h1
    subst hv
    cases h with
    | same b hs =>
      cases hs with
      | same c hs2 =>
        cases hs2
        rfl
      | lower c hc1 hc2 hs2 => omega
    | lower b hb1 hb2 hs => omega

theorem shape_of_emptyLine_left {u v : List Nat} (h : Shape u v) (he : isEmptyLine u = true) :
    u = v := by
  simp only [isEmptyLine] at he
  rcases Bool.or_eq_true_iff.mp he with h1 | h1
  · have hu : u = [10] := by simpa using h1
    subst hu
    cases h with
    | same b hs =>
      cases hs
      rfl
  · have hu : u = [13, 10] := by simpa using h1
    subst hu
    cases h with
    | same b hs =>
      cases hs with
      | same c hs2 =>
        cases hs2
        rfl

theorem isEmptyLine_shape {u v : List Nat} (h : Shape u v) :
    isEmptyLine u = isEmptyLine v := by
  by_cases hv : isEmptyLine v = true
  · rw [shape_of_emptyLine h hv]
  · by_cases hu : isEmptyLine u = true
    · rw [shape_of_emptyLine_left h hu]
    · simp [Bool.not_eq_true] at hv hu
      rw [hv, hu]

theorem blockLines_shape_aux (n : Nat) :
    ∀ u v : List Nat, v.length ≤ n → Shape u v →
      (blockLines v = none → blockLines u = none) ∧
      (∀ lsv, blockLines v = some lsv →
        ∃ lsu, blockLines u = some lsu ∧ lsu.map List.length = lsv.map List.length) := by
  induction n with
  | zero =>
    intro u v hlen h
    have hv : v = [] := List.length_eq_zero.mp (Nat.le_zero.mp hlen)
    subst hv
    cases h
    constructor
    · intro _; rfl
    · intro lsv hv; exact Option.noConfusion hv
  | succ n ih =>
    intro u v hlen h
    cases hsv : splitLine v with
    | none =>
      have hsu := splitLine_shape_none h hsv
      constructor
      · intro _; exact blockLines_eq_none u hsu
      · intro lsv hv; rw [blockLines_eq_none v hsv] at hv; simp at hv
    | some p =>
      obtain ⟨lu, ru, hsu, hshl, hshr⟩ := splitLine_shape_some h p.1 p.2 (by rw [hsv])
      have hemp := isEmptyLine_shape hshl
      by_cases he : isEmptyLine p.1 = true
      · constructor
        · intro hv; rw [blockLines_eq_some v p.1 p.2 (by rw [hsv])] at hv; simp [he] at hv
        · intro lsv hv
          rw [blockLines_eq_some v p.1 p.2 (by rw [hsv])] at hv
          simp [he] at hv
          refine ⟨[lu], ?_, ?_⟩
          · rw [blockLines_eq_some u lu ru hsu]
            simp [hemp ▸ he]
          · rw [← hv]
            simp [shape_length hshl]
      · have hrlen : p.2.length ≤ n := by
          have := splitLine_rest_lt v p.1 p.2 (by rw [hsv])
          omega
        have hrec := ih ru p.2 hrlen hshr
        have heu : isEmptyLine lu = false := by
          rw [hemp]
          simpa using he
        constructor
        · intro hv
          rw [blockLines_eq_some v p.1 p.2 (by rw [hsv])] at hv
          simp only [he, Bool.false_eq_true, if_false] at hv
          rw [blockLines_eq_some u lu ru hsu]
          simp only [heu, Bool.false_eq_true, if_false]
          cases hblr : blockLines p.2 with
          | none => rw [hrec.1 hblr]; simp
          | some q => rw [hblr] at hv; simp at hv
        · intro lsv hv
          rw [blockLines_eq_some v p.1 p.2 (by rw [hsv])] at hv
          simp only [he, Bool.false_eq_true, if_false] at hv
          cases hblr : blockLines p.2 with
          | none => rw [hblr] at hv; simp at hv
          | some q =>
            rw [hblr] at hv
            simp at hv
            obtain ⟨lsu2, hu2, hlen2⟩ := hrec.2 q hblr
            refine ⟨lu :: lsu2, ?_, ?_⟩
            · rw [blockLines_eq_some u lu ru hsu]
              simp only [heu, Bool.false_eq_true, if_false]
              rw [hu2]
              simp
            · rw [← hv]
              simp [hlen2, shape_length hshl]

theorem specHeaderBlockLen_shape {u v : List Nat} (h : Shape u v) :
    specHeaderBlockLen u = specHeaderBlockLen v := by
  have hrec := blockLines_shape_aux v.length u v (Nat.le_refl _) h
  unfold specHeaderBlockLen
  cases hv : blockLines v with
  | none => rw [hrec.1 hv]
  | some lsv =>
    obtain ⟨lsu, hu, hlen⟩ := hrec.2 lsv hv
    rw [hu]
    simp [hlen]

theorem not_prefix_both (p q l : List Nat) (h1 : p.isPrefixOf l = true)
    (hpq : p.isPrefixOf q = false) (hqp : q.isPrefixOf p = false) :
    q.isPrefixOf l = false := by
  by_contra hq
  simp only [Bool.not_eq_false] at hq
  have hp := List.isPrefixOf_iff_prefix.mp h1
  have hql := List.isPrefixOf_iff_prefix.mp hq
  rcases List.prefix_or_prefix_of_prefix hp hql with hc | hc
  · have := List.isPrefixOf_iff_prefix.mpr hc
    simp [hpq] at this
  · have := List.isPrefixOf_iff_prefix.mpr hc
    simp [hqp] at this

theorem conn_not_cl (l : List Nat) (h : isConnectionHeader l = true) :
    isContentLengthHeader l = false :=
  not_prefix_both connectionHeaderBytes contentLengthHeaderBytes l h (by decide) (by decide)

theorem conn_not_te (l : List Nat) (h : isConnectionHeader l = true) :
    isTransferEncodingHeader l = false :=
  not_prefix_both connectionHeaderBytes transferEncodingBytes l h (by decide) (by decide)

theorem cl_not_te (l : List Nat) (h : isContentLengthHeader l = true) :
    isTransferEncodingHeader l = false :=
  not_prefix_both contentLengthHeaderBytes transferEncodingBytes l h (by decide) (by decide)

theorem ptwb_fst (h : Header) (b : ByteBuffer) (l : List Nat) :
    (parseThenWriteBuffer h b l).1 = lineEff h l := by
  unfold lineEff parseThenWriteBuffer
  by_cases hc : isConnectionHeader l = true
  · simp [hc]
  · simp only [Bool.not_eq_true] at hc
    simp only [hc, Bool.false_eq_true, if_false]
    by_cases hp : isProxyHeader l = true
    · simp [hp]
    · simp only [Bool.not_eq_true] at hp
      simp only [hp]
      cases hw1 : ByteBuffer.write b l with
      | ok b2 =>
        cases hw2 : ByteBuffer.write { cap := 0, data := [] } l with
        | ok b3 => simp [hw1, hw2]
        | error e => simp [hw1, hw2]
      | error e =>
        cases hw2 : ByteBuffer.write { cap := 0, data := [] } l with
        | ok b3 => simp [hw1, hw2]
        | error e2 => simp [hw1, hw2]

theorem ptwb_mline (h : Header) (b : ByteBuffer) (l : List Nat) :
    (parseThenWriteBuffer h b l).2.2.1 =
      if isConnectionHeader l then changeToLowerCase l else l := by
  unfold parseThenWriteBuffer
  by_cases hc : isConnectionHeader l = true
  · simp [hc]
  · simp only [Bool.not_eq_true] at hc
    simp only [hc, Bool.false_eq_true, if_false]
    by_cases hp : isProxyHeader l = true
    · simp [hp]
    · simp only [Bool.not_eq_true] at hp
      simp only [hp]
      cases hw1 : ByteBuffer.write b l with
      | ok b2 => simp [hw1]
      | error e => simp [hw1]

theorem ptwb_mline_shape (h : Header) (b : ByteBuffer) (l : List Nat) :
    Shape ((parseThenWriteBuffer h b l).2.2.1) l := by
  rw [ptwb_mline]
  by_cases hc : isConnectionHeader l = true
  · simp only [hc, if_true]
    exact shape_lowerLine l
  · simp only [Bool.not_eq_true] at hc
    simp only [hc, Bool.false_eq_true, if_false]
    exact shape_refl l

theorem ptwb_buf_cases (h : Header) (b : ByteBuffer) (l : List Nat) :
    (emitsLine l = false ∧ (parseThenWriteBuffer h b l).2.1 = b ∧
      (parseThenWriteBuffer h b l).2.2.2 = none) ∨
    (emitsLine l = true ∧
      (((parseThenWriteBuffer h b l).2.1 = { cap := b.cap, data := b.data ++ l } ∧
          (parseThenWriteBuffer h b l).2.2.2 = none ∧ b.data.length + l.length ≤ b.cap) ∨
        ((parseThenWriteBuffer h b l).2.1 = b ∧
          (parseThenWriteBuffer h b l).2.2.2 = some .shortBuffer ∧ b.cap < b.data.length + l.length))) := by
  unfold parseThenWriteBuffer emitsLine
  by_cases hc : isConnectionHeader l = true
  · left
    simp [hc]
  · simp only [Bool.not_eq_true] at hc
    simp only [hc, Bool.false_eq_true, if_false]
    by_cases hp : isProxyHeader l = true
    · left
      simp [hp]
    · simp only [Bool.not_eq_true] at hp
      simp only [hp]
      right
      refine ⟨by simp, ?_⟩
      by_cases hcap : b.cap < b.data.length + l.length
      · right
        have hw : ByteBuffer.write b l = .error .shortBuffer := by
          unfold ByteBuffer.write
          simp [hcap]
        simp [hw, hcap]
      · left
        have hw : ByteBuffer.write b l = .ok { cap := b.cap, data := b.data ++ l } := by
          unfold ByteBuffer.write
          simp [hcap]
        simp [hw]
        omega

theorem lineEff_contentLength (h : Header) (l : List Nat) :
    (lineEff h l).contentLength = framingStep h.contentLength l := by
  unfold lineEff parseThenWriteBuffer
  by_cases hc : isConnectionHeader l = true
  · have h1 := conn_not_cl l hc
    have h2 := conn_not_te l hc
    have hstep : framingStep h.contentLength l = h.contentLength := by
      unfold framingStep setsLength setsChunked setsIdentity
      simp [h1, h2]
    rw [hstep]
    simp only [hc, if_true]
    by_cases hcl : containsSub (changeToLowerCase l) closeBytes = true
    · simp [hcl]
    · simp [hcl]
  · simp only [Bool.not_eq_true] at hc
    simp only [hc, Bool.false_eq_true, if_false]
    have hgoal : ∀ b2 : ByteBuffer,
        (framingStep h.contentLength l) =
          (if isContentLengthHeader l then
            match indexOfByte l 58 with
            | some lengthBytesIndex =>
              if 0 < lengthBytesIndex then
                if 0 < parseIntGo (trimSpace (l.drop (lengthBytesIndex + 1))) then
                  { h with contentLength := parseIntGo (trimSpace (l.drop (lengthBytesIndex + 1))) }
                else h
              else h
            | none => h
          else if isTransferEncodingHeader l then
            if containsSub l chunkedBytes then { h with contentLength := -1 }
            else if containsSub l identityBytes then { h with contentLength := -2 }
            else h
          else h).contentLength := by
      intro b2
      by_cases hcl : isContentLengthHeader l = true
      · have hte := cl_not_te l hcl
        unfold framingStep setsLength setsChunked setsIdentity clValue
        simp only [hcl, hte, if_true, Bool.true_and, Bool.false_and, Bool.and_self]
        cases hidx : indexOfByte l 58 with
        | none => simp
        | some i =>
          by_cases hi : 0 < i
          · by_cases hval : 0 < parseIntGo (trimSpace (l.drop (i + 1)))
            · simp [hi, hval]
            · simp [hi, hval]
          · simp [hi]
      · simp only [Bool.not_eq_true] at hcl
        unfold framingStep setsLength setsChunked setsIdentity
        simp only [hcl, Bool.false_eq_true, if_false, Bool.false_and]
        by_cases hte : isTransferEncodingHeader l = true
        · simp only [hte, Bool.true_and, if_true]
          by_cases hch : containsSub l chunkedBytes = true
          · simp [hch]
          · simp only [Bool.not_eq_true] at hch
            simp only [hch, Bool.false_eq_true, if_false, Bool.not_false, Bool.true_and]
            by_cases hid : containsSub l identityBytes = true
            · simp [hid]
            · simp [hid]
        · simp only [Bool.not_eq_true] at hte
          simp [hte]
    by_cases hp : isProxyHeader l = true
    · simp only [hp, Bool.not_true, Bool.false_eq_true, if_false]
      exact (hgoal { cap := 0, data := [] }).symm
    · simp only [Bool.not_eq_true] at hp
      simp only [hp, Bool.not_false, if_true]
      cases hw : ByteBuffer.write { cap := 0, data := [] } l with
      | ok b2 => exact (hgoal b2).symm
      | error e => exact (hgoal { cap := 0, data := [] }).symm

theorem scanLines_eq_empty (l line rest : List Nat) (hsl : splitLine l = some (line, rest))
    (he : isEmptyLine line = true) : scanLines l = [line] := by
  rw [scanLines_eq_some l line rest hsl]
  simp [he]

theorem scanLines_eq_cons (l line rest : List Nat) (hsl : splitLine l = some (line, rest))
    (he : isEmptyLine line = false) : scanLines l = line :: scanLines rest := by
  rw [scanLines_eq_some l line rest hsl]
  simp [he]

theorem readHeadersLoop_eq_none (h : Header) (buf : ByteBuffer) (b : List Nat) (n : Nat)
    (hsl : splitLine b = none) :
    readHeadersLoop h buf b n = (h, buf.reset, b, .error .needMore) := by
  unfold readHeadersLoop
  cases hk : b.length with
  | zero => rfl
  | succ k => simp [readHeadersLoopF, hsl]

theorem readHeadersLoop_eq_some (h : Header) (buf : ByteBuffer) (b line rest : List Nat) (n : Nat)
    (hsl : splitLine b = some (line, rest)) :
    readHeadersLoop h buf b n =
      (match parseThenWriteBuffer h buf line with
      | (h2, buf2, mline, some e) => (h2, buf2.reset, mline ++ rest, .error e)
      | (h2, buf2, mline, none) =>
        if isEmptyLine line then (h2, buf2, mline ++ rest, .ok (n + line.length))
        else
          let r := readHeadersLoop h2 buf2 rest (n + line.length)
          (r.1, r.2.1, mline ++ r.2.2.1, r.2.2.2)) := by
  cases b with
  | nil => simp [splitLine] at hsl
  | cons x xs =>
    have hlt := splitLine_rest_lt (x :: xs) line rest hsl
    simp only [List.length_cons] at hlt
    have hirrel : ∀ h2 buf2,
        readHeadersLoopF xs.length h2 buf2 rest (n + line.length) =
          readHeadersLoopF rest.length h2 buf2 rest (n + line.length) := by
      intro h2 buf2
      exact readHeadersLoopF_irrel xs.length rest.length h2 buf2 rest (n + line.length)
        (by omega) (Nat.le_refl _)
    unfold readHeadersLoop
    simp only [List.length_cons, readHeadersLoopF, hsl]
    simp only [hirrel]

theorem readHeadersLoop_eq_err (h : Header) (buf : ByteBuffer) (b line rest : List Nat) (n : Nat)
    (h2 : Header) (buf2 : ByteBuffer) (mline : List Nat) (e : HErr)
    (hsl : splitLine b = some (line, rest))
    (hpt : parseThenWriteBuffer h buf line = (h2, buf2, mline, some e)) :
    readHeadersLoop h buf b n = (h2, buf2.reset, mline ++ rest, .error e) := by
  rw [readHeadersLoop_eq_some h buf b line rest n hsl, hpt]

theorem readHeadersLoop_eq_empty (h : Header) (buf : ByteBuffer) (b line rest : List Nat) (n : Nat)
    (h2 : Header) (buf2 : ByteBuffer) (mline : List Nat)
    (hsl : splitLine b = some (line, rest))
    (hpt : parseThenWriteBuffer h buf line = (h2, buf2, mline, none))
    (he : isEmptyLine line = true) :
    readHeadersLoop h buf b n = (h2, buf2, mline ++ rest, .ok (n + line.length)) := by
  rw [readHeadersLoop_eq_some h buf b line rest n hsl, hpt]
  simp [he]

theorem readHeadersLoop_eq_step (h : Header) (buf : ByteBuffer) (b line rest : List Nat) (n : Nat)
    (h2 : Header) (buf2 : ByteBuffer) (mline : List Nat)
    (hsl : splitLine b = some (line, rest))
    (hpt : parseThenWriteBuffer h buf line = (h2, buf2, mline, none))
    (he : isEmptyLine line = false) :
    readHeadersLoop h buf b n =
      ((readHeadersLoop h2 buf2 rest (n + line.length)).1,
       (readHeadersLoop h2 buf2 rest (n + line.length)).2.1,
       mline ++ (readHeadersLoop h2 buf2 rest (n + line.length)).2.2.1,
       (readHeadersLoop h2 buf2 rest (n + line.length)).2.2.2) := by
  rw [readHeadersLoop_eq_some h buf b line rest n hsl, hpt]
  simp [he]

theorem readHeaders_eq_none (h : Header) (buf : List Nat) (buffer : ByteBuffer)
    (hsl : splitLine buf = none) :
    readHeaders h buf buffer = (h, buffer, buf, .error .needMore) := by
  rw [readHeaders, hsl]

theorem readHeaders_eq_some (h : Header) (buf line rest : List Nat) (buffer : ByteBuffer)
    (hsl : splitLine buf = some (line, rest)) (he : isEmptyLine line = false) :
    readHeaders h buf buffer =
      (match parseThenWriteBuffer h buffer.reset line with
      | (h2, buf2, mline, some e) => (h2, buf2.reset, mline ++ rest, .error e)
      | (h2, buf2, mline, none) =>
        let r := readHeadersLoop h2 buf2 rest line.length
        (r.1, r.2.1, mline ++ r.2.2.1, r.2.2.2)) := by
  rw [readHeaders, hsl]
  simp only [he, Bool.false_eq_true, if_false]

theorem readHeaders_eq_empty (h : Header) (buf line rest : List Nat) (buffer : ByteBuffer)
    (hsl : splitLine buf = some (line, rest)) (he : isEmptyLine line = true) :
    readHeaders h buf buffer = (h, buffer, buf, .ok line.length) := by
  rw [readHeaders, hsl]
  simp [he]

theorem readHeaders_eq_err (h : Header) (buf line rest : List Nat) (buffer : ByteBuffer)
    (h2 : Header) (buf2 : ByteBuffer) (mline : List Nat) (e : HErr)
    (hsl : splitLine buf = some (line, rest)) (he : isEmptyLine line = false)
    (hpt : parseThenWriteBuffer h buffer.reset line = (h2, buf2, mline, some e)) :
    readHeaders h buf buffer = (h2, buf2.reset, mline ++ rest, .error e) := by
  rw [readHeaders_eq_some h buf line rest buffer hsl he, hpt]

theorem readHeaders_eq_step (h : Header) (buf line rest : List Nat) (buffer : ByteBuffer)
    (h2 : Header) (buf2 : ByteBuffer) (mline : List Nat)
    (hsl : splitLine buf = some (line, rest)) (he : isEmptyLine line = false)
    (hpt : parseThenWriteBuffer h buffer.reset line = (h2, buf2, mline, none)) :
    readHeaders h buf buffer =
      ((readHeadersLoop h2 buf2 rest line.length).1,
       (readHeadersLoop h2 buf2 rest line.length).2.1,
       mline ++ (readHeadersLoop h2 buf2 rest line.length).2.2.1,
       (readHeadersLoop h2 buf2 rest line.length).2.2.2) := by
  rw [readHeaders_eq_some h buf line rest buffer hsl he, hpt]

theorem ptwb_none_buf (h : Header) (buf : ByteBuffer) (l : List Nat) (h2 : Header)
    (buf2 : ByteBuffer) (mline : List Nat)
    (hpt : parseThenWriteBuffer h buf l = (h2, buf2, mline, none)) :
    buf2.data = buf.data ++ (if emitsLine l then l else []) ∧ buf2.cap = buf.cap := by
  rcases ptwb_buf_cases h buf l with ⟨hem, hb, _⟩ | ⟨hem, hcase⟩
  · rw [hpt] at hb
    simp at hb
    simp [hem, hb]
  · rcases hcase with ⟨hb, _, _⟩ | ⟨_, hsome, _⟩
    · rw [hpt] at hb
      simp at hb
      simp [hem, hb]
    · rw [hpt] at hsome
      simp at hsome

theorem ptwb_none_hdr (h : Header) (buf : ByteBuffer) (l : List Nat) (h2 : Header)
    (buf2 : ByteBuffer) (mline : List Nat)
    (hpt : parseThenWriteBuffer h buf l = (h2, buf2, mline, none)) :
    h2 = lineEff h l := by
  have hf := ptwb_fst h buf l
  rw [hpt] at hf
  simpa using hf

theorem ptwb_err_spec (h : Header) (buf : ByteBuffer) (l : List Nat) (h2 : Header)
    (buf2 : ByteBuffer) (mline : List Nat) (e : HErr)
    (hpt : parseThenWriteBuffer h buf l = (h2, buf2, mline, some e)) :
    e = .shortBuffer ∧ mline = l := by
  rcases ptwb_buf_cases h buf l with ⟨hem, _, hnone⟩ | ⟨hem, hcase⟩
  · rw [hpt] at hnone
    simp at hnone
  · have hconn : isConnectionHeader l = false := by
      unfold emitsLine at hem
      rcases Bool.and_eq_true_iff.mp hem with ⟨h1, _⟩
      simpa using h1
    have hm := ptwb_mline h buf l
    rw [hpt] at hm
    simp [hconn] at hm
    rcases hcase with ⟨_, hnone, _⟩ | ⟨_, hsome, _⟩
    · rw [hpt] at hnone
      simp at hnone
    · rw [hpt] at hsome
      simp at hsome
      exact ⟨hsome, hm⟩

theorem readHeadersLoop_induction (P : Header → ByteBuffer → List Nat → Nat → Prop)
    (case1 : ∀ h buf b n, splitLine b = none → P h buf b n)
    (case2 : ∀ h buf b n line rest h2 buf2 mline e, splitLine b = some (line, rest) →
      parseThenWriteBuffer h buf line = (h2, buf2, mline, some e) → P h buf b n)
    (case3 : ∀ h buf b n line rest h2 buf2 mline, splitLine b = some (line, rest) →
      parseThenWriteBuffer h buf line = (h2, buf2, mline, none) →
      isEmptyLine line = true → P h buf b n)
    (case4 : ∀ h buf b n line rest h2 buf2 mline, splitLine b = some (line, rest) →
      parseThenWriteBuffer h buf line = (h2, buf2, mline, none) →
      isEmptyLine line = false → P h2 buf2 rest (n + line.length) → P h buf b n) :
    ∀ h buf b n, P h buf b n := by
  have key : ∀ k h buf b n, b.length ≤ k → P h buf b n := by
    intro k
    induction k with
    | zero =>
      intro h buf b n hb
      have hnil : b = [] := List.length_eq_zero.mp (Nat.le_zero.mp hb)
      subst hnil
      exact case1 h buf [] n rfl
    | succ k ih =>
      intro h buf b n hb
      cases hsl : splitLine b with
      | none => exact case1 h buf b n hsl
      | some p =>
        obtain ⟨line, rest⟩ := p
        rcases hpt : parseThenWriteBuffer h buf line with ⟨h2, t⟩
        obtain ⟨buf2, mline, eres⟩ := t
        cases eres with
        | some e => exact case2 h buf b n line rest h2 buf2 mline e hsl hpt
        | none =>
          by_cases he : isEmptyLine line = true
          · exact case3 h buf b n line rest h2 buf2 mline hsl hpt he
          · have hlt := splitLine_rest_lt b line rest hsl
            exact case4 h buf b n line rest h2 buf2 mline hsl hpt (by simpa using he)
              (ih h2 buf2 rest (n + line.length) (by omega))
  exact fun h buf b n => key b.length h buf b n (Nat.le_refl _)

theorem readHeadersLoop_ok (h : Header) (buf : ByteBuffer) (b : List Nat) (n : Nat) :
    ∀ hr br m L, readHeadersLoop h buf b n = (hr, br, m, .ok L) →
      blockLines b = some (scanLines b) ∧
      L = n + ((scanLines b).map List.length).sum ∧
      hr = (scanLines b).foldl lineEff h ∧
      br.data = buf.data ++ ((scanLines b).filter emitsLine).flatten ∧
      br.cap = buf.cap := by
  induction h, buf, b, n using readHeadersLoop_induction with
  | case1 h buf b n hsl =>
    intro hr br m L heq
    rw [readHeadersLoop_eq_none h buf b n hsl] at heq
    simp at heq
  | case2 h buf b n line rest h2 buf2 mline e hsl hpt =>
    intro hr br m L heq
    rw [readHeadersLoop_eq_err h buf b line rest n h2 buf2 mline e hsl hpt] at heq
    simp at heq
  | case3 h buf b n line rest h2 buf2 mline hsl hpt he =>
    intro hr br m L heq
    rw [readHeadersLoop_eq_empty h buf b line rest n h2 buf2 mline hsl hpt he] at heq
    simp only [Prod.mk.injEq, Except.ok.injEq] at heq
    obtain ⟨e1, e2, e3, e4⟩ := heq
    have hscan := scanLines_eq_empty b line rest hsl he
    have hbl : blockLines b = some [line] := by
      rw [blockLines_eq_some b line rest hsl]
      simp [he]
    obtain ⟨hbd, hbc⟩ := ptwb_none_buf h buf line h2 buf2 mline hpt
    refine ⟨by rw [hbl, hscan], by rw [hscan, ← e4]; simp, ?_, ?_, ?_⟩
    · rw [hscan, ← e1, ptwb_none_hdr h buf line h2 buf2 mline hpt]
      simp
    · rw [hscan, ← e2, hbd]
      by_cases hem : emitsLine line = true
      · simp [hem]
      · simp only [Bool.not_eq_true] at hem
        simp [hem]
    · rw [← e2, hbc]
  | case4 h buf b n line rest h2 buf2 mline hsl hpt he ih =>
    have he2 : isEmptyLine line = false := by simpa using he
    intro hr br m L heq
    rw [readHeadersLoop_eq_step h buf b line rest n h2 buf2 mline hsl hpt he2] at heq
    simp only [Prod.mk.injEq] at heq
    obtain ⟨e1, e2, e3, e4⟩ := heq
    cases hrec : readHeadersLoop h2 buf2 rest (n + line.length) with
    | mk rh rtail =>
    obtain ⟨rb, rm, rres⟩ := rtail
    rw [hrec] at e1 e2 e3 e4
    cases rres with
    | error e => simp at e4
    | ok L2 =>
    simp at e1 e2 e3 e4
    obtain ⟨hbl2, hL2, hh2, hbd2, hbc2⟩ := ih rh rb rm L2 hrec
    have hscan := scanLines_eq_cons b line rest hsl he2
    have hbl : blockLines b = some (scanLines b) := by
      rw [blockLines_eq_some b line rest hsl]
      simp only [he2, Bool.false_eq_true, if_false]
      rw [hbl2, hscan]
      rfl
    obtain ⟨hbd, hbc⟩ := ptwb_none_buf h buf line h2 buf2 mline hpt
    refine ⟨hbl, ?_, ?_, ?_, ?_⟩
    · rw [hscan, ← e4, hL2]
      simp
      omega
    · rw [hscan, ← e1, hh2, ptwb_none_hdr h buf line h2 buf2 mline hpt]
      simp
    · rw [← e2, hbd2, hbd, hscan]
      by_cases hem : emitsLine line = true
      · simp [hem]
      · simp only [Bool.not_eq_true] at hem
        simp [hem]
    · rw [← e2, hbc2, hbc]

theorem readHeadersLoop_err (h : Header) (buf : ByteBuffer) (b : List Nat) (n : Nat) :
    ∀ hr br m e, readHeadersLoop h buf b n = (hr, br, m, .error e) →
      (e = .needMore ∨ e = .shortBuffer) ∧ br.data = [] := by
  induction h, buf, b, n using readHeadersLoop_induction with
  | case1 h buf b n hsl =>
    intro hr br m e heq
    rw [readHeadersLoop_eq_none h buf b n hsl] at heq
    simp at heq
    exact ⟨Or.inl heq.2.2.2.symm, by rw [← heq.2.1]; rfl⟩
  | case2 h buf b n line rest h2 buf2 mline e0 hsl hpt =>
    intro hr br m e heq
    rw [readHeadersLoop_eq_err h buf b line rest n h2 buf2 mline e0 hsl hpt] at heq
    simp at heq
    obtain ⟨hsb, _⟩ := ptwb_err_spec h buf line h2 buf2 mline e0 hpt
    exact ⟨Or.inr (by rw [← heq.2.2.2, hsb]), by rw [← heq.2.1]; rfl⟩
  | case3 h buf b n line rest h2 buf2 mline hsl hpt he =>
    intro hr br m e heq
    rw [readHeadersLoop_eq_empty h buf b line rest n h2 buf2 mline hsl hpt he] at heq
    simp at heq
  | case4 h buf b n line rest h2 buf2 mline hsl hpt he ih =>
    have he2 : isEmptyLine line = false := by simpa using he
    intro hr br m e heq
    rw [readHeadersLoop_eq_step h buf b line rest n h2 buf2 mline hsl hpt he2] at heq
    simp only [Prod.mk.injEq] at heq
    obtain ⟨e1, e2, e3, e4⟩ := heq
    cases hrec : readHeadersLoop h2 buf2 rest (n + line.length) with
    | mk rh rtail =>
    obtain ⟨rb, rm, rres⟩ := rtail
    rw [hrec] at e1 e2 e3 e4
    cases rres with
    | ok L2 => simp at e4
    | error e5 =>
    simp at e1 e2 e3 e4
    obtain ⟨hcls, hdata⟩ := ih rh rb rm e5 hrec
    rw [← e4]
    exact ⟨hcls, by rw [← e2]; exact hdata⟩

theorem readHeadersLoop_shape (h : Header) (buf : ByteBuffer) (b : List Nat) (n : Nat) :
    Shape ((readHeadersLoop h buf b n).2.2.1) b := by
  induction h, buf, b, n using readHeadersLoop_induction with
  | case1 h buf b n hsl =>
    rw [readHeadersLoop_eq_none h buf b n hsl]
    exact shape_refl b
  | case2 h buf b n line rest h2 buf2 mline e hsl hpt =>
    rw [readHeadersLoop_eq_err h buf b line rest n h2 buf2 mline e hsl hpt]
    have hm := ptwb_mline_shape h buf line
    rw [hpt] at hm
    simp at hm
    rw [splitLine_eq b line rest hsl]
    exact shape_append hm (shape_refl rest)
  | case3 h buf b n line rest h2 buf2 mline hsl hpt he =>
    rw [readHeadersLoop_eq_empty h buf b line rest n h2 buf2 mline hsl hpt he]
    have hm := ptwb_mline_shape h buf line
    rw [hpt] at hm
    simp at hm
    rw [splitLine_eq b line rest hsl]
    exact shape_append hm (shape_refl rest)
  | case4 h buf b n line rest h2 buf2 mline hsl hpt he ih =>
    have he2 : isEmptyLine line = false := by simpa using he
    rw [readHeadersLoop_eq_step h buf b line rest n h2 buf2 mline hsl hpt he2]
    have hm := ptwb_mline_shape h buf line
    rw [hpt] at hm
    simp at hm
    rw [splitLine_eq b line rest hsl]
    exact shape_append hm ih

theorem readHeadersLoop_mut_id (h : Header) (buf : ByteBuffer) (b : List Nat) (n : Nat) :
    (∀ l ∈ scanLines b, isConnectionHeader l = false) →
      (readHeadersLoop h buf b n).2.2.1 = b := by
  induction h, buf, b, n using readHeadersLoop_induction with
  | case1 h buf b n hsl =>
    intro _
    rw [readHeadersLoop_eq_none h buf b n hsl]
  | case2 h buf b n line rest h2 buf2 mline e hsl hpt =>
    intro hconn
    rw [readHeadersLoop_eq_err h buf b line rest n h2 buf2 mline e hsl hpt]
    obtain ⟨_, hml⟩ := ptwb_err_spec h buf line h2 buf2 mline e hpt
    simp only []
    rw [hml, ← splitLine_eq b line rest hsl]
  | case3 h buf b n line rest h2 buf2 mline hsl hpt he =>
    intro hconn
    rw [readHeadersLoop_eq_empty h buf b line rest n h2 buf2 mline hsl hpt he]
    have hlc : isConnectionHeader line = false := by
      apply hconn
      rw [scanLines_eq_empty b line rest hsl he]
      simp
    have hm := ptwb_mline h buf line
    rw [hpt] at hm
    simp [hlc] at hm
    simp only []
    rw [hm, ← splitLine_eq b line rest hsl]
  | case4 h buf b n line rest h2 buf2 mline hsl hpt he ih =>
    have he2 : isEmptyLine line = false := by simpa using he
    intro hconn
    rw [readHeadersLoop_eq_step h buf b line rest n h2 buf2 mline hsl hpt he2]
    have hsc := scanLines_eq_cons b line rest hsl he2
    have hlc : isConnectionHeader line = false := by
      apply hconn
      rw [hsc]
      simp
    have hm := ptwb_mline h buf line
    rw [hpt] at hm
    simp [hlc] at hm
    have hrest : (readHeadersLoop h2 buf2 rest (n + line.length)).2.2.1 = rest := by
      apply ih
      intro l hl
      apply hconn
      rw [hsc]
      simp [hl]
    simp only []
    rw [hm, hrest, ← splitLine_eq b line rest hsl]

theorem readHeaders_ok_spec (h : Header) (w : List Nat) (buf : ByteBuffer) :
    ∀ hr br m L, readHeaders h w buf = (hr, br, m, .ok L) →
      blockLines w = some (scanLines w) ∧
      L = ((scanLines w).map List.length).sum ∧
      ((∃ l0, scanLines w = [l0] ∧ isEmptyLine l0 = true ∧ hr = h ∧ br = buf ∧ m = w) ∨
       (hr = (scanLines w).foldl lineEff h ∧
        br.data = ((scanLines w).filter emitsLine).flatten ∧
        br.cap = buf.cap)) := by
  intro hr br m L heq
  cases hsl : splitLine w with
  | none =>
    rw [readHeaders_eq_none h w buf hsl] at heq
    simp at heq
  | some p =>
    obtain ⟨line, rest⟩ := p
    by_cases he : isEmptyLine line = true
    · rw [readHeaders_eq_empty h w line rest buf hsl he] at heq
      simp at heq
      obtain ⟨e1, e2, e3, e4⟩ := heq
      have hscan := scanLines_eq_empty w line rest hsl he
      have hbl : blockLines w = some [line] := by
        rw [blockLines_eq_some w line rest hsl]
        simp [he]
      refine ⟨by rw [hbl, hscan], by rw [hscan, ← e4]; simp, Or.inl ?_⟩
      exact ⟨line, hscan, he, e1.symm, e2.symm, e3.symm⟩
    · have he2 : isEmptyLine line = false := by simpa using he
      cases hpt : parseThenWriteBuffer h buf.reset line with
      | mk h2 t =>
      obtain ⟨buf2, mline, eres⟩ := t
      cases eres with
      | some e =>
        rw [readHeaders_eq_err h w line rest buf h2 buf2 mline e hsl he2 hpt] at heq
        simp at heq
      | none =>
        rw [readHeaders_eq_step h w line rest buf h2 buf2 mline hsl he2 hpt] at heq
        simp only [Prod.mk.injEq] at heq
        obtain ⟨e1, e2, e3, e4⟩ := heq
        cases hrec : readHeadersLoop h2 buf2 rest line.length with
        | mk rh rtail =>
        obtain ⟨rb, rm, rres⟩ := rtail
        rw [hrec] at e1 e2 e3 e4
        cases rres with
        | error e5 => simp at e4
        | ok L2 =>
        simp at e1 e2 e3 e4
        obtain ⟨hbl2, hL2, hh2, hbd2, hbc2⟩ := readHeadersLoop_ok h2 buf2 rest line.length rh rb rm L2 hrec
        have hscan := scanLines_eq_cons w line rest hsl he2
        have hbl : blockLines w = some (scanLines w) := by
          rw [blockLines_eq_some w line rest hsl]
          simp only [he2, Bool.false_eq_true, if_false]
          rw [hbl2, hscan]
          rfl
        obtain ⟨hbd, hbc⟩ := ptwb_none_buf h buf.reset line h2 buf2 mline hpt
        refine ⟨hbl, ?_, Or.inr ⟨?_, ?_, ?_⟩⟩
        · rw [hscan, ← e4, hL2]
          simp
        · rw [hscan, ← e1, hh2, ptwb_none_hdr h buf.reset line h2 buf2 mline hpt]
          simp
        · rw [← e2, hbd2, hbd, hscan]
          unfold ByteBuffer.reset
          by_cases hem : emitsLine line = true
          · simp [hem]
          · simp only [Bool.not_eq_true] at hem
            simp [hem]
        · rw [← e2, hbc2, hbc]
          rfl

theorem readHeaders_err_spec (h : Header) (w : List Nat) (buf : ByteBuffer) :
    ∀ hr br m e, readHeaders h w buf = (hr, br, m, .error e) →
      (e = .needMore ∨ e = .shortBuffer) ∧ (br = buf ∨ br.data = []) := by
  intro hr br m e heq
  cases hsl : splitLine w with
  | none =>
    rw [readHeaders_eq_none h w buf hsl] at heq
    simp at heq
    exact ⟨Or.inl heq.2.2.2.symm, Or.inl heq.2.1.symm⟩
  | some p =>
    obtain ⟨line, rest⟩ := p
    by_cases he : isEmptyLine line = true
    · rw [readHeaders_eq_empty h w line rest buf hsl he] at heq
      simp at heq
    · have he2 : isEmptyLine line = false := by simpa using he
      cases hpt : parseThenWriteBuffer h buf.reset line with
      | mk h2 t =>
      obtain ⟨buf2, mline, eres⟩ := t
      cases eres with
      | some e0 =>
        rw [readHeaders_eq_err h w line rest buf h2 buf2 mline e0 hsl he2 hpt] at heq
        simp at heq
        obtain ⟨hsb, _⟩ := ptwb_err_spec h buf.reset line h2 buf2 mline e0 hpt
        refine ⟨Or.inr (by rw [← heq.2.2.2, hsb]), Or.inr ?_⟩
        rw [← heq.2.1]
        rfl
      | none =>
        rw [readHeaders_eq_step h w line rest buf h2 buf2 mline hsl he2 hpt] at heq
        simp only [Prod.mk.injEq] at heq
        obtain ⟨e1, e2, e3, e4⟩ := heq
        cases hrec : readHeadersLoop h2 buf2 rest line.length with
        | mk rh rtail =>
        obtain ⟨rb, rm, rres⟩ := rtail
        rw [hrec] at e1 e2 e3 e4
        cases rres with
        | ok L2 => simp at e4
        | error e5 =>
        simp at e1 e2 e3 e4
        obtain ⟨hcls, hdata⟩ := readHeadersLoop_err h2 buf2 rest line.length rh rb rm e5 hrec
        rw [← e4]
        exact ⟨hcls, Or.inr (by rw [← e2]; exact hdata)⟩

theorem readHeaders_shape (h : Header) (w : List Nat) (buf : ByteBuffer) :
    Shape ((readHeaders h w buf).2.2.1) w := by
  cases hsl : splitLine w with
  | none =>
    rw [readHeaders_eq_none h w buf hsl]
    exact shape_refl w
  | some p =>
    obtain ⟨line, rest⟩ := p
    by_cases he : isEmptyLine line = true
    · rw [readHeaders_eq_empty h w line rest buf hsl he]
      exact shape_refl w
    · have he2 : isEmptyLine line = false := by simpa using he
      cases hpt : parseThenWriteBuffer h buf.reset line with
      | mk h2 t =>
      obtain ⟨buf2, mline, eres⟩ := t
      have hm := ptwb_mline_shape h buf.reset line
      rw [hpt] at hm
      simp at hm
      cases eres with
      | some e0 =>
        rw [readHeaders_eq_err h w line rest buf h2 buf2 mline e0 hsl he2 hpt]
        rw [splitLine_eq w line rest hsl]
        exact shape_append hm (shape_refl rest)
      | none =>
        rw [readHeaders_eq_step h w line rest buf h2 buf2 mline hsl he2 hpt]
        rw [splitLine_eq w line rest hsl]
        exact shape_append hm (readHeadersLoop_shape h2 buf2 rest line.length)

theorem readHeaders_mut_id (h : Header) (w : List Nat) (buf : ByteBuffer)
    (hconn : ∀ l ∈ scanLines w, isConnectionHeader l = false) :
    (readHeaders h w buf).2.2.1 = w := by
  cases hsl : splitLine w with
  | none =>
    rw [readHeaders_eq_none h w buf hsl]
  | some p =>
    obtain ⟨line, rest⟩ := p
    by_cases he : isEmptyLine line = true
    · rw [readHeaders_eq_empty h w line rest buf hsl he]
    · have he2 : isEmptyLine line = false := by simpa using he
      have hsc := scanLines_eq_cons w line rest hsl he2
      have hlc : isConnectionHeader line = false := by
        apply hconn
        rw [hsc]
        simp
      cases hpt : parseThenWriteBuffer h buf.reset line with
      | mk h2 t =>
      obtain ⟨buf2, mline, eres⟩ := t
      have hm := ptwb_mline h buf.reset line
      rw [hpt] at hm
      simp [hlc] at hm
      cases eres with
      | some e0 =>
        rw [readHeaders_eq_err h w line rest buf h2 buf2 mline e0 hsl he2 hpt]
        simp only []
        rw [hm, ← splitLine_eq w line rest hsl]
      | none =>
        rw [readHeaders_eq_step h w line rest buf h2 buf2 mline hsl he2 hpt]
        have hrest : (readHeadersLoop h2 buf2 rest line.length).2.2.1 = rest := by
          apply readHeadersLoop_mut_id
          intro l hl
          apply hconn
          rw [hsc]
          simp [hl]
        simp only []
        rw [hm, hrest, ← splitLine_eq w line rest hsl]

theorem reader_nbuf_le_rem (r : Reader) (n : Nat) (hwf : r.pos + r.nbuf ≤ r.data.length) :
    max r.nbuf (min n r.remaining) ≤ r.remaining := by
  unfold Reader.remaining
  omega

theorem reader_window_length (r : Reader) (hle : r.nbuf ≤ r.remaining) :
    r.window.length = r.nbuf := by
  unfold Reader.window Reader.remaining at *
  simp
  omega

theorem reader_data_decomp (r : Reader) (hwf : r.pos + r.nbuf ≤ r.data.length) :
    r.data = r.data.take r.pos ++ r.window ++ r.data.drop (r.pos + r.nbuf) := by
  unfold Reader.window
  rw [List.append_assoc]
  have h1 : (r.data.drop r.pos).take r.nbuf ++ r.data.drop (r.pos + r.nbuf) = r.data.drop r.pos := by
    have h2 : r.data.drop (r.pos + r.nbuf) = (r.data.drop r.pos).drop r.nbuf := by
      rw [List.drop_drop, Nat.add_comm]
    rw [h2, List.take_append_drop]
  rw [h1, List.take_append_drop]

theorem writeBack_shape (r : Reader) (m : List Nat) (hwf : r.pos + r.nbuf ≤ r.data.length)
    (hsh : Shape m r.window) :
    Shape (r.writeBack m).data r.data ∧ (r.writeBack m).data.length = r.data.length := by
  have hdec := reader_data_decomp r hwf
  have hshape : Shape (r.data.take r.pos ++ m ++ r.data.drop (r.pos + r.nbuf))
      (r.data.take r.pos ++ r.window ++ r.data.drop (r.pos + r.nbuf)) :=
    shape_append (shape_append (shape_refl _) hsh) (shape_refl _)
  constructor
  · unfold Reader.writeBack
    simp only []
    rw [← hdec] at hshape
    exact hshape
  · unfold Reader.writeBack
    simp only []
    rw [← hdec] at hshape
    exact shape_length hshape

theorem tryRead_cases (h : Header) (r : Reader) (buf : ByteBuffer) (n : Nat) :
    (tryRead h r buf n =
        (h, { r with nbuf := max r.nbuf (min n r.remaining) }, buf, some .unexpectedEOF)) ∨
    (∃ hr br m res,
      readHeaders h (Reader.window { r with nbuf := max r.nbuf (min n r.remaining) }) buf =
        (hr, br, m, res) ∧
      ((∃ e, res = .error e ∧
          tryRead h r buf n =
            (hr, Reader.writeBack { r with nbuf := max r.nbuf (min n r.remaining) } m, br,
              some e)) ∨
       (∃ L, res = .ok L ∧
          tryRead h r buf n =
            (hr, (Reader.writeBack { r with nbuf := max r.nbuf (min n r.remaining) } m).discard L,
              br, none)))) := by
  unfold tryRead Reader.peek
  simp only []
  by_cases hz : ((r.data.drop r.pos).take (min n (max r.nbuf (min n r.remaining)))).length == 0
  · left
    simp only [hz, if_true]
  · right
    simp only [hz, Bool.false_eq_true, if_false]
    cases hrh : readHeaders h (Reader.window { r with nbuf := max r.nbuf (min n r.remaining) }) buf with
    | mk hr t =>
    obtain ⟨br, m, res⟩ := t
    refine ⟨hr, br, m, res, rfl, ?_⟩
    cases res with
    | error e =>
      left
      refine ⟨e, rfl, ?_⟩
      rfl
    | ok L =>
      right
      refine ⟨L, rfl, ?_⟩
      rfl

theorem specHeaderBlockLen_of_window (r1 : Reader) (L : Nat)
    (hwf : r1.pos + r1.nbuf ≤ r1.data.length)
    (hbl : specHeaderBlockLen r1.window = some L) :
    specHeaderBlockLen (r1.data.drop r1.pos) = some L := by
  unfold specHeaderBlockLen at hbl ⊢
  cases hb : blockLines r1.window with
  | none => rw [hb] at hbl; simp at hbl
  | some ls =>
    rw [hb] at hbl
    have happ := blockLines_append r1.window ls ((r1.data.drop r1.pos).drop r1.nbuf) hb
    have heq : r1.window ++ (r1.data.drop r1.pos).drop r1.nbuf = r1.data.drop r1.pos := by
      unfold Reader.window
      rw [List.take_append_drop]
    rw [heq] at happ
    rw [happ]
    exact hbl

theorem tryRead_spec (h : Header) (r : Reader) (buf : ByteBuffer) (n : Nat)
    (hwf : r.pos + r.nbuf ≤ r.data.length) :
    (tryRead h r buf n).2.1.pos + (tryRead h r buf n).2.1.nbuf ≤
      (tryRead h r buf n).2.1.data.length ∧
    (tryRead h r buf n).2.1.data.length = r.data.length ∧
    ((tryRead h r buf n).2.2.2 = none →
      ∃ len, specHeaderBlockLen (r.data.drop r.pos) = some len ∧
        (tryRead h r buf n).2.1.pos = r.pos + len) ∧
    (∀ e, (tryRead h r buf n).2.2.2 = some e →
      (tryRead h r buf n).2.1.pos = r.pos ∧
      specHeaderBlockLen ((tryRead h r buf n).2.1.data.drop r.pos) =
        specHeaderBlockLen (r.data.drop r.pos) ∧
      (e ≠ .needMore → e = .unexpectedEOF ∨ e = .shortBuffer)) := by
  have hnb := reader_nbuf_le_rem r n hwf
  have hkey : r.pos + max r.nbuf (min n r.remaining) ≤ r.data.length := by
    unfold Reader.remaining at hnb ⊢
    omega
  have hwf1 : Reader.pos { r with nbuf := max r.nbuf (min n r.remaining) } +
      Reader.nbuf { r with nbuf := max r.nbuf (min n r.remaining) } ≤
      (Reader.data { r with nbuf := max r.nbuf (min n r.remaining) }).length := hkey
  have hwlen : (Reader.window { r with nbuf := max r.nbuf (min n r.remaining) }).length =
      max r.nbuf (min n r.remaining) := by
    have := reader_window_length { r with nbuf := max r.nbuf (min n r.remaining) }
      (by unfold Reader.remaining at hnb ⊢; exact hnb)
    exact this
  rcases tryRead_cases h r buf n with heof | ⟨hr2, br, m, res, hrh, hcase⟩
  · rw [heof]
    refine ⟨hkey, rfl, ?_, ?_⟩
    · intro hcon
      simp at hcon
    · intro e he
      simp only [Option.some.injEq] at he
      subst he
      exact ⟨rfl, rfl, fun _ => Or.inl rfl⟩
  · have hshm : Shape m (Reader.window { r with nbuf := max r.nbuf (min n r.remaining) }) := by
      have hsh := readHeaders_shape h
        (Reader.window { r with nbuf := max r.nbuf (min n r.remaining) }) buf
      rw [hrh] at hsh
      exact hsh
    obtain ⟨hwb_shape, hwb_len⟩ :=
      writeBack_shape { r with nbuf := max r.nbuf (min n r.remaining) } m hwf1 hshm
    rcases hcase with ⟨e, hres, heq⟩ | ⟨L, hres, heq⟩
    · rw [heq]
      refine ⟨?_, hwb_len, ?_, ?_⟩
      · show r.pos + max r.nbuf (min n r.remaining) ≤ _
        rw [hwb_len]
        exact hkey
      · intro hcon
        simp at hcon
      · intro e2 he2
        simp only [Option.some.injEq] at he2
        have he3 : e2 = e := he2.symm
        subst he3
        refine ⟨rfl, ?_, ?_⟩
        · exact specHeaderBlockLen_shape (shape_drop hwb_shape r.pos)
        · intro hne
          subst hres
          obtain ⟨hcls, _⟩ := readHeaders_err_spec h
            (Reader.window { r with nbuf := max r.nbuf (min n r.remaining) }) buf hr2 br m e2 hrh
          rcases hcls with hc | hc
          · exact absurd hc hne
          · right
            exact hc
    · rw [heq]
      subst hres
      obtain ⟨hbl, hLsum, _⟩ := readHeaders_ok_spec h
        (Reader.window { r with nbuf := max r.nbuf (min n r.remaining) }) buf hr2 br m L hrh
      have hspecw : specHeaderBlockLen
          (Reader.window { r with nbuf := max r.nbuf (min n r.remaining) }) = some L := by
        unfold specHeaderBlockLen
        rw [hbl, hLsum]
        rfl
      have hLle : L ≤ max r.nbuf (min n r.remaining) := by
        rw [← hwlen, hLsum]
        have := blockLines_len_bound
          (Reader.window { r with nbuf := max r.nbuf (min n r.remaining) })
          (scanLines (Reader.window { r with nbuf := max r.nbuf (min n r.remaining) })) hbl
        omega
      have hspec : specHeaderBlockLen (r.data.drop r.pos) = some L :=
        specHeaderBlockLen_of_window { r with nbuf := max r.nbuf (min n r.remaining) } L hwf1 hspecw
      refine ⟨?_, hwb_len, ?_, ?_⟩
      · show (r.pos + L) + (max r.nbuf (min n r.remaining) - L) ≤
          ((Reader.writeBack { r with nbuf := max r.nbuf (min n r.remaining) } m).data).length
        rw [hwb_len]
        show _ ≤ r.data.length
        omega
      · intro _
        exact ⟨L, hspec, rfl⟩
      · intro e2 he2
        simp at he2

theorem parseAux_spec (fuel : Nat) :
    ∀ n h r buf hq rq bq res, r.pos + r.nbuf ≤ r.data.length →
      parseHeaderFieldsAux fuel h r buf n = (hq, rq, bq, res) →
      rq.data.length = r.data.length ∧
      ((res = .ok ∧ ∃ len, specHeaderBlockLen (r.data.drop r.pos) = some len ∧
          rq.pos = r.pos + len) ∨
       (res ≠ .ok ∧ rq.pos = r.pos ∧
        (∀ e, res = .err e → e = .unexpectedEOF ∨ e = .shortBuffer))) := by
  induction fuel with
  | zero =>
    intro n h r buf hq rq bq res hwf heq
    simp only [parseHeaderFieldsAux] at heq
    simp at heq
    obtain ⟨_, e2, _, e4⟩ := heq
    subst e2
    refine ⟨rfl, Or.inr ⟨by rw [← e4]; simp, rfl, ?_⟩⟩
    intro e he
    rw [← e4] at he
    simp at he
  | succ fuel ih =>
    intro n h r buf hq rq bq res hwf heq
    obtain ⟨htr1, htr2, htr3, htr4⟩ := tryRead_spec h r buf n hwf
    simp only [parseHeaderFieldsAux] at heq
    cases htr : tryRead h r buf n with
    | mk h2 t2 =>
    obtain ⟨r2, b2, oe⟩ := t2
    rw [htr] at heq htr1 htr2 htr3 htr4
    cases oe with
    | none =>
      simp at heq htr3
      obtain ⟨len, hlen, hpos⟩ := htr3
      obtain ⟨e1, e2, e3, e4⟩ := heq
      subst e2
      refine ⟨htr2, Or.inl ⟨by rw [← e4], len, hlen, by rw [← hpos]⟩⟩
    | some e =>
      cases e with
      | needMore =>
        simp only [] at heq
        obtain ⟨hpos2, hsp2, _⟩ := htr4 .needMore rfl
        simp only [] at hpos2 hsp2 htr1 htr2
        obtain ⟨hlen2, hrest⟩ := ih (r2.nbuf + 1) h2 r2 b2 hq rq bq res htr1 heq
        refine ⟨by rw [hlen2, htr2], ?_⟩
        rcases hrest with ⟨hok, len, hsp3, hpos3⟩ | ⟨hnok, hpos3, hcls⟩
        · left
          refine ⟨hok, len, ?_, ?_⟩
          · rw [hpos2] at hsp3
            rw [hsp2] at hsp3
            exact hsp3
          · rw [hpos3, hpos2]
        · right
          exact ⟨hnok, by rw [hpos3, hpos2], hcls⟩
      | unexpectedEOF =>
        simp only [] at heq
        simp at heq
        obtain ⟨hpos2, _, hcls⟩ := htr4 .unexpectedEOF rfl
        obtain ⟨e1, e2, e3, e4⟩ := heq
        subst e2
        refine ⟨htr2, Or.inr ⟨by rw [← e4]; simp, hpos2, ?_⟩⟩
        intro e0 he0
        rw [← e4] at he0
        simp at he0
        subst he0
        exact hcls (by simp)
      | shortBuffer =>
        simp only [] at heq
        simp at heq
        obtain ⟨hpos2, _, hcls⟩ := htr4 .shortBuffer rfl
        obtain ⟨e1, e2, e3, e4⟩ := heq
        subst e2
        refine ⟨htr2, Or.inr ⟨by rw [← e4]; simp, hpos2, ?_⟩⟩
        intro e0 he0
        rw [← e4] at he0
        simp at he0
        subst he0
        exact hcls (by simp)

theorem scanLines_terminated (b : List Nat) : ∀ l ∈ scanLines b, terminatedLine l := by
  induction b using splitLine_induction with
  | base b hsl =>
    rw [scanLines_eq_none b hsl]
    simp
  | empty b line rest hsl he =>
    rw [scanLines_eq_empty b line rest hsl he]
    intro l hl
    simp at hl
    rw [hl]
    exact splitLine_line_shape b line rest hsl
  | step b line rest hsl he ih =>
    have he2 : isEmptyLine line = false := by simpa using he
    rw [scanLines_eq_cons b line rest hsl he2]
    intro l hl
    rcases List.mem_cons.mp hl with hl2 | hl2
    · rw [hl2]
      exact splitLine_line_shape b line rest hsl
    · exact ih l hl2

theorem readHeaders_goodBuf (h : Header) (w : List Nat) (buf : ByteBuffer)
    (hP : ∃ ls : List (List Nat), buf.data = ls.flatten ∧
      ∀ l ∈ ls, terminatedLine l ∧ isConnectionHeader l = false ∧ isProxyHeader l = false) :
    ∀ hr br m res, readHeaders h w buf = (hr, br, m, res) →
      ∃ ls : List (List Nat), br.data = ls.flatten ∧
        ∀ l ∈ ls, terminatedLine l ∧ isConnectionHeader l = false ∧ isProxyHeader l = false := by
  intro hr br m res heq
  cases res with
  | error e =>
    obtain ⟨_, hbuf⟩ := readHeaders_err_spec h w buf hr br m e heq
    rcases hbuf with hbuf | hbuf
    · rw [hbuf]
      exact hP
    · exact ⟨[], by simp [hbuf], by simp⟩
  | ok L =>
    obtain ⟨_, _, hcase⟩ := readHeaders_ok_spec h w buf hr br m L heq
    rcases hcase with ⟨l0, _, _, _, hbr, _⟩ | ⟨_, hbd, _⟩
    · rw [hbr]
      exact hP
    · refine ⟨(scanLines w).filter emitsLine, hbd, ?_⟩
      intro l hl
      rw [List.mem_filter] at hl
      obtain ⟨hmem, hem⟩ := hl
      refine ⟨scanLines_terminated w l hmem, ?_, ?_⟩
      · unfold emitsLine at hem
        rcases Bool.and_eq_true_iff.mp hem with ⟨h1, _⟩
        simpa using h1
      · unfold emitsLine at hem
        rcases Bool.and_eq_true_iff.mp hem with ⟨_, h2⟩
        simpa using h2

theorem parseAux_goodBuf (fuel : Nat) :
    ∀ n h r buf hq rq bq res,
      (∃ ls : List (List Nat), buf.data = ls.flatten ∧
        ∀ l ∈ ls, terminatedLine l ∧ isConnectionHeader l = false ∧ isProxyHeader l = false) →
      parseHeaderFieldsAux fuel h r buf n = (hq, rq, bq, res) →
      ∃ ls : List (List Nat), bq.data = ls.flatten ∧
        ∀ l ∈ ls, terminatedLine l ∧ isConnectionHeader l = false ∧ isProxyHeader l = false := by
  induction fuel with
  | zero =>
    intro n h r buf hq rq bq res hP heq
    simp only [parseHeaderFieldsAux] at heq
    simp at heq
    rw [← heq.2.2.1]
    exact hP
  | succ fuel ih =>
    intro n h r buf hq rq bq res hP heq
    simp only [parseHeaderFieldsAux] at heq
    rcases tryRead_cases h r buf n with heof | ⟨hr2, br, m, res2, hrh, hcase⟩
    · rw [heof] at heq
      simp at heq
      refine ⟨[], ?_, by simp⟩
      rw [← heq.2.2.1]
      rfl
    · have hPbr := readHeaders_goodBuf h
        (Reader.window { r with nbuf := max r.nbuf (min n r.remaining) }) buf hP hr2 br m res2 hrh
      rcases hcase with ⟨e, hres, htr⟩ | ⟨L, hres, htr⟩
      · rw [htr] at heq
        cases e with
        | needMore =>
          simp only [] at heq
          exact ih _ hr2 _ br hq rq bq res hPbr heq
        | unexpectedEOF =>
          simp at heq
          refine ⟨[], by rw [← heq.2.2.1]; rfl, by simp⟩
        | shortBuffer =>
          simp at heq
          refine ⟨[], by rw [← heq.2.2.1]; rfl, by simp⟩
      · rw [htr] at heq
        simp at heq
        rw [← heq.2.2.1]
        exact hPbr

theorem writeBack_window (r : Reader) (hwf : r.pos + r.nbuf ≤ r.data.length) :
    r.writeBack r.window = r := by
  have hd : r.data.take r.pos ++ r.window ++ r.data.drop (r.pos + r.nbuf) = r.data :=
    (reader_data_decomp r hwf).symm
  unfold Reader.writeBack
  rw [hd]

theorem parseAux_c5 (bls : List (List Nat)) (fuel : Nat) :
    ∀ n h r buf hq rq bq,
      r.pos + r.nbuf ≤ r.data.length →
      buf.data = [] →
      blockLines (r.data.drop r.pos) = some bls →
      2 ≤ bls.length →
      (∀ l ∈ bls, isConnectionHeader l = false ∧ isProxyHeader l = false) →
      parseHeaderFieldsAux fuel h r buf n = (hq, rq, bq, .ok) →
      bq.data = bls.flatten := by
  induction fuel with
  | zero =>
    intro n h r buf hq rq bq hwf hbuf0 hbl hlen hconn heq
    simp only [parseHeaderFieldsAux] at heq
    simp at heq
  | succ fuel ih =>
    intro n h r buf hq rq bq hwf hbuf0 hbl hlen hconn heq
    have hnb := reader_nbuf_le_rem r n hwf
    have hwf1 : Reader.pos { r with nbuf := max r.nbuf (min n r.remaining) } +
        Reader.nbuf { r with nbuf := max r.nbuf (min n r.remaining) } ≤
        (Reader.data { r with nbuf := max r.nbuf (min n r.remaining) }).length := by
      show r.pos + max r.nbuf (min n r.remaining) ≤ r.data.length
      unfold Reader.remaining at hnb ⊢
      omega
    simp only [parseHeaderFieldsAux] at heq
    rcases tryRead_cases h r buf n with heof | ⟨hr2, br, m, res2, hrh, hcase⟩
    · rw [heof] at heq
      simp at heq
    · have hwindow : Reader.window { r with nbuf := max r.nbuf (min n r.remaining) } =
          (r.data.drop r.pos).take (max r.nbuf (min n r.remaining)) := rfl
      have hscan_conn : ∀ l ∈ scanLines
          (Reader.window { r with nbuf := max r.nbuf (min n r.remaining) }),
          isConnectionHeader l = false := by
        intro l hl
        rw [hwindow] at hl
        exact (hconn l (scanLines_take_mem (r.data.drop r.pos) bls
          (max r.nbuf (min n r.remaining)) l hbl hl)).1
      have hmut : m = Reader.window { r with nbuf := max r.nbuf (min n r.remaining) } := by
        have := readHeaders_mut_id h
          (Reader.window { r with nbuf := max r.nbuf (min n r.remaining) }) buf hscan_conn
        rw [hrh] at this
        exact this
      rcases hcase with ⟨e, hres, htr⟩ | ⟨L, hres, htr⟩
      · rw [htr] at heq
        cases e with
        | needMore =>
          simp only [] at heq
          have hwbw : Reader.writeBack { r with nbuf := max r.nbuf (min n r.remaining) } m =
              { r with nbuf := max r.nbuf (min n r.remaining) } := by
            rw [hmut]
            exact writeBack_window { r with nbuf := max r.nbuf (min n r.remaining) } hwf1
          rw [hwbw] at heq
          subst hres
          obtain ⟨_, hbuf⟩ := readHeaders_err_spec h
            (Reader.window { r with nbuf := max r.nbuf (min n r.remaining) }) buf hr2 br m
            .needMore hrh
          have hbr0 : br.data = [] := by
            rcases hbuf with hbuf | hbuf
            · rw [hbuf, hbuf0]
            · exact hbuf
          exact ih _ hr2 { r with nbuf := max r.nbuf (min n r.remaining) } br hq rq bq
            hwf1 hbr0 hbl hlen hconn heq
        | unexpectedEOF =>
          simp at heq
        | shortBuffer =>
          simp at heq
      · rw [htr] at heq
        simp at heq
        subst hres
        obtain ⟨hbl2, _, hcase2⟩ := readHeaders_ok_spec h
          (Reader.window { r with nbuf := max r.nbuf (min n r.remaining) }) buf hr2 br m L hrh
        have hbls_eq : scanLines (Reader.window { r with nbuf := max r.nbuf (min n r.remaining) })
            = bls := by
          apply blockLines_take_eq (r.data.drop r.pos) bls (max r.nbuf (min n r.remaining)) hbl
          rw [← hwindow]
          exact hbl2
        rcases hcase2 with ⟨l0, hl0, _, _, _, _⟩ | ⟨_, hbd, _⟩
        · rw [hl0] at hbls_eq
          rw [← hbls_eq] at hlen
          simp at hlen
        · obtain ⟨_, _, e3⟩ := heq
          rw [← e3, hbd, hbls_eq]
          have hfilter : bls.filter emitsLine = bls := by
            rw [List.filter_eq_self]
            intro a ha
            unfold emitsLine
            rw [(hconn a ha).1, (hconn a ha).2]
            rfl
          rw [hfilter]

theorem te_not_cl (l : List Nat) (h : isTransferEncodingHeader l = true) :
    isContentLengthHeader l = false := by
  by_cases hcl : isContentLengthHeader l = true
  · rw [cl_not_te l hcl] at h
    simp at h
  · simpa using hcl

theorem foldl_lineEff_contentLength (ls : List (List Nat)) :
    ∀ h : Header, (ls.foldl lineEff h).contentLength =
      ls.foldl framingStep h.contentLength := by
  induction ls with
  | nil => intro h; rfl
  | cons x xs ih =>
    intro h
    rw [List.foldl_cons, List.foldl_cons, ih (lineEff h x), lineEff_contentLength]

theorem framingStep_chunked (c : Int) (l : List Nat) (h : setsChunked l = true) :
    framingStep c l = -1 := by
  unfold framingStep
  have hte : isTransferEncodingHeader l = true := by
    unfold setsChunked at h
    exact (Bool.and_eq_true_iff.mp h).1
  have hcl : isContentLengthHeader l = false := te_not_cl l hte
  have hsl : setsLength l = false := by
    unfold setsLength
    rw [hcl]
    rfl
  rw [hsl, h]
  simp

theorem framingStep_keeps (c : Int) (l : List Nat)
    (h1 : setsLength l = false) (h2 : setsChunked l = false) (h3 : setsIdentity l = false) :
    framingStep c l = c := by
  unfold framingStep
  rw [h1, h2, h3]
  simp

theorem foldl_framing_stays (ys : List (List Nat))
    (hys : ∀ l ∈ ys, setsLength l = false ∧ setsIdentity l = false) :
    ys.foldl framingStep (-1) = -1 := by
  induction ys with
  | nil => rfl
  | cons x xs ih =>
    rw [List.foldl_cons]
    have hx := hys x (by simp)
    have hstep : framingStep (-1) x = -1 := by
      unfold framingStep
      rw [hx.1, hx.2]
      by_cases hch : setsChunked x = true
      · rw [hch]; simp
      · simp only [Bool.not_eq_true] at hch
        rw [hch]
        simp
    rw [hstep]
    exact ih (fun l hl => hys l (by simp [hl]))

theorem foldl_framing_cl (ys : List (List Nat)) (v : Int)
    (hys : ∀ l ∈ ys, setsLength l = false ∧ isTransferEncodingHeader l = false) :
    ys.foldl framingStep v = v := by
  induction ys with
  | nil => rfl
  | cons x xs ih =>
    rw [List.foldl_cons]
    have hx := hys x (by simp)
    have hch : setsChunked x = false := by
      unfold setsChunked
      rw [hx.2]
      rfl
    have hid : setsIdentity x = false := by
      unfold setsIdentity
      rw [hx.2]
      rfl
    rw [framingStep_keeps v x hx.1 hch hid]
    exact ih (fun l hl => hys l (by simp [hl]))

theorem parseAux_err_buf (fuel : Nat) :
    ∀ n h r buf hq rq bq e,
      parseHeaderFieldsAux fuel h r buf n = (hq, rq, bq, .err e) → bq.data = [] := by
  induction fuel with
  | zero =>
    intro n h r buf hq rq bq e heq
    simp only [parseHeaderFieldsAux] at heq
    simp at heq
  | succ fuel ih =>
    intro n h r buf hq rq bq e heq
    simp only [parseHeaderFieldsAux] at heq
    cases htr : tryRead h r buf n with
    | mk h2 t2 =>
    obtain ⟨r2, b2, oe⟩ := t2
    rw [htr] at heq
    cases oe with
    | none => simp at heq
    | some e2 =>
      cases e2 with
      | needMore =>
        simp only [] at heq
        exact ih _ h2 r2 b2 hq rq bq e heq
      | unexpectedEOF =>
        simp at heq
        rw [← heq.2.2.1]
        rfl
      | shortBuffer =>
        simp at heq
        rw [← heq.2.2.1]
        rfl

/-- C1 counterexample: the header block with a Transfer-Encoding chunked line
followed by a positive Content-Length line parses successfully, yet the
resulting contentLength is 5, not -1: the later Content-Length line
overrides the chunked marker. -/
theorem c1_counterexample :
    isTransferEncodingHeader (strBytes ("Transfer-Encoding: chunked\r\n")) = true ∧
    containsSub (strBytes ("Transfer-Encoding: chunked\r\n")) chunkedBytes = true ∧
    splitLine (strBytes ("Transfer-Encoding: chunked\r\nContent-Length: 5\r\n\r\n")) =
      some (strBytes ("Transfer-Encoding: chunked\r\n"), strBytes ("Content-Length: 5\r\n\r\n")) ∧
    (readHeaders { isConnectionClose := false, contentLength := 0 }
        (strBytes ("Transfer-Encoding: chunked\r\nContent-Length: 5\r\n\r\n"))
        { cap := 100, data := [] }).2.2.2 = Except.ok 49 ∧
    (readHeaders { isConnectionClose := false, contentLength := 0 }
        (strBytes ("Transfer-Encoding: chunked\r\nContent-Length: 5\r\n\r\n"))
        { cap := 100, data := [] }).1.contentLength = 5 := by
  exact ⟨by decide, by decide, by decide, by rfl, by decide⟩

/-- C1 (amended): for every successfully parsed header block, contentLength
is -1 whenever a Transfer-Encoding line containing chunked appears and no
later line overrides the framing (no later positive Content-Length line and
no later Transfer-Encoding line selecting identity); a Content-Length line
before the Transfer-Encoding line is overridden as the original claim
states, but one after it wins. -/
theorem c1_amended_theorem (h : Header) (w : List Nat) (buf : ByteBuffer)
    (hr : Header) (br : ByteBuffer) (m : List Nat) (L : Nat)
    (xs ys : List (List Nat)) (te : List Nat)
    (heq : readHeaders h w buf = (hr, br, m, Except.ok L))
    (hdec : scanLines w = xs ++ te :: ys)
    (hte : setsChunked te = true)
    (hys : ∀ l ∈ ys, setsLength l = false ∧ setsIdentity l = false) :
    hr.contentLength = -1 := by
  obtain ⟨hbl, _, hcase⟩ := readHeaders_ok_spec h w buf hr br m L heq
  rcases hcase with ⟨l0, hl0, hemp, hh, _, _⟩ | ⟨hh, _, _⟩
  · exfalso
    have hmem : te ∈ scanLines w := by rw [hdec]; simp
    rw [hl0] at hmem
    simp at hmem
    rw [← hmem] at hemp
    unfold isEmptyLine at hemp
    rcases Bool.or_eq_true_iff.mp hemp with h1 | h1
    · have hte10 : te = [10] := by simpa using h1
      rw [hte10] at hte
      exact absurd hte (by decide)
    · have hte1310 : te = [13, 10] := by simpa using h1
      rw [hte1310] at hte
      exact absurd hte (by decide)
  · rw [hh, foldl_lineEff_contentLength, hdec, List.foldl_append, List.foldl_cons,
      framingStep_chunked _ te hte]
    exact foldl_framing_stays ys hys

/-- C1 witness: a block with Content-Length 5 before Transfer-Encoding
chunked parses to contentLength -1, via the amended theorem. -/
theorem c1_witness :
    (readHeaders { isConnectionClose := false, contentLength := 0 }
        (strBytes ("Content-Length: 5\r\nTransfer-Encoding: chunked\r\n\r\n"))
        { cap := 100, data := [] }).1.contentLength = -1 := by
  have h := c1_amended_theorem { isConnectionClose := false, contentLength := 0 }
    (strBytes ("Content-Length: 5\r\nTransfer-Encoding: chunked\r\n\r\n"))
    { cap := 100, data := [] }
    (readHeaders { isConnectionClose := false, contentLength := 0 }
        (strBytes ("Content-Length: 5\r\nTransfer-Encoding: chunked\r\n\r\n"))
        { cap := 100, data := [] }).1
    (readHeaders { isConnectionClose := false, contentLength := 0 }
        (strBytes ("Content-Length: 5\r\nTransfer-Encoding: chunked\r\n\r\n"))
        { cap := 100, data := [] }).2.1
    (readHeaders { isConnectionClose := false, contentLength := 0 }
        (strBytes ("Content-Length: 5\r\nTransfer-Encoding: chunked\r\n\r\n"))
        { cap := 100, data := [] }).2.2.1
    49
    [strBytes ("Content-Length: 5\r\n")] [strBytes ("\r\n")]
    (strBytes ("Transfer-Encoding: chunked\r\n"))
    (by rfl) (by rfl) (by decide) (by decide)
  exact h

theorem isProxyHeader_false_parts (l : List Nat) (h : isProxyHeader l = false) :
    (strBytes ("Accept-Encoding")).isPrefixOf l = false ∧
    (strBytes ("Proxy-Connection")).isPrefixOf l = false ∧
    (strBytes ("Proxy-Authenticate")).isPrefixOf l = false ∧
    (strBytes ("Proxy-Authorization")).isPrefixOf l = false := by
  unfold isProxyHeader proxyHeadersList at h
  simp only [List.any_cons, List.any_nil, Bool.or_eq_false_iff] at h
  exact ⟨h.1, h.2.1, h.2.2.1, h.2.2.2.1⟩

/-- C2: ParseHeaderFields either succeeds, having advanced the reader by
exactly the length of the header block at the read position (the block up to
and including the terminating empty line, as specHeaderBlockLen measures it)
while consuming nothing else of the stream, or it does not succeed, leaves
the read position where it was, and any returned error is the unexpected-eof
or the short-buffer one. -/
theorem c2_theorem (h : Header) (r : Reader) (buf : ByteBuffer) (fuel : Nat)
    (hq : Header) (rq : Reader) (bq : ByteBuffer) (res : PResult)
    (hwf : r.pos + r.nbuf ≤ r.data.length)
    (heq : parseHeaderFields h r buf fuel = (hq, rq, bq, res)) :
    rq.data.length = r.data.length ∧
    ((res = .ok ∧ ∃ len, specHeaderBlockLen (r.data.drop r.pos) = some len ∧
        rq.pos = r.pos + len) ∨
     (res ≠ .ok ∧ rq.pos = r.pos ∧
      (∀ e, res = .err e → e = .unexpectedEOF ∨ e = .shortBuffer))) := by
  unfold parseHeaderFields at heq
  exact parseAux_spec fuel 1 h r buf hq rq bq res hwf heq

/-- C2 witness: on the stream holding one header line, the terminating empty
line and two trailing body bytes, the scanner succeeds and advances the
reader by exactly the eight block bytes. -/
theorem c2_witness :
    (strBytes ("A: b\r\n\r\nXY")).length = (strBytes ("A: b\r\n\r\nXY")).length ∧
    ((PResult.ok = PResult.ok ∧ ∃ len,
        specHeaderBlockLen ((strBytes ("A: b\r\n\r\nXY")).drop 0) = some len ∧ 8 = 0 + len) ∨
     (PResult.ok ≠ PResult.ok ∧ 8 = 0 ∧
      (∀ e, PResult.ok = PResult.err e → e = HErr.unexpectedEOF ∨ e = HErr.shortBuffer))) :=
  c2_theorem { isConnectionClose := false, contentLength := 0 }
    { data := strBytes ("A: b\r\n\r\nXY"), pos := 0, nbuf := 0 } { cap := 100, data := [] } 12
    { isConnectionClose := false, contentLength := 0 }
    { data := strBytes ("A: b\r\n\r\nXY"), pos := 8, nbuf := 0 }
    { cap := 100, data := strBytes ("A: b\r\n\r\n") } PResult.ok
    (by decide) (by rfl)

/-- C3: after a successful ParseHeaderFields run that started from an empty
target buffer, no line of the emitted buffer has Connection, Accept-Encoding,
Proxy-Connection, Proxy-Authenticate or Proxy-Authorization as a prefix. -/
theorem c3_theorem (h : Header) (r : Reader) (buf : ByteBuffer) (fuel : Nat)
    (hq : Header) (rq : Reader) (bq : ByteBuffer)
    (hbuf : buf.data = [])
    (heq : parseHeaderFields h r buf fuel = (hq, rq, bq, .ok)) :
    ∀ l ∈ linesOf bq.data,
      (strBytes ("Connection")).isPrefixOf l = false ∧
      (strBytes ("Accept-Encoding")).isPrefixOf l = false ∧
      (strBytes ("Proxy-Connection")).isPrefixOf l = false ∧
      (strBytes ("Proxy-Authenticate")).isPrefixOf l = false ∧
      (strBytes ("Proxy-Authorization")).isPrefixOf l = false := by
  unfold parseHeaderFields at heq
  have hP : ∃ ls : List (List Nat), buf.data = ls.flatten ∧
      ∀ l ∈ ls, terminatedLine l ∧ isConnectionHeader l = false ∧ isProxyHeader l = false :=
    ⟨[], by simp [hbuf], by simp⟩
  obtain ⟨ls, hflat, hprop⟩ := parseAux_goodBuf fuel 1 h r buf hq rq bq .ok hP heq
  intro l hl
  rw [hflat, linesOf_flatten ls (fun x hx => (hprop x hx).1)] at hl
  obtain ⟨-, hconn, hproxy⟩ := hprop l hl
  obtain ⟨h1, h2, h3, h4⟩ := isProxyHeader_false_parts l hproxy
  exact ⟨hconn, h1, h2, h3, h4⟩

/-- C3 witness: scanning a block that opens with a Connection close line, the
first line of the emitted buffer is the lowercased connection line, which
carries none of the five banned prefixes. -/
theorem c3_witness :
    (strBytes ("Connection")).isPrefixOf (strBytes ("connection: close\r\n")) = false ∧
    (strBytes ("Accept-Encoding")).isPrefixOf (strBytes ("connection: close\r\n")) = false ∧
    (strBytes ("Proxy-Connection")).isPrefixOf (strBytes ("connection: close\r\n")) = false ∧
    (strBytes ("Proxy-Authenticate")).isPrefixOf (strBytes ("connection: close\r\n")) = false ∧
    (strBytes ("Proxy-Authorization")).isPrefixOf (strBytes ("connection: close\r\n")) = false :=
  c3_theorem { isConnectionClose := false, contentLength := 0 }
    { data := strBytes ("Connection: close\r\nA: b\r\n\r\n"), pos := 0, nbuf := 0 }
    { cap := 100, data := [] } 40
    { isConnectionClose := true, contentLength := 0 }
    { data := strBytes ("connection: close\r\nA: b\r\n\r\n"), pos := 27, nbuf := 0 }
    { cap := 100, data := strBytes ("connection: close\r\nA: b\r\n\r\n") }
    (by rfl) (by rfl) (strBytes ("connection: close\r\n")) (by decide)

/-- C5 counterexample: the empty header block, a single terminating empty
line, is a complete block with no banned lines, yet a successful scan emits
nothing: the output is not byte-equal to the input block. -/
theorem c5_counterexample :
    blockLines (strBytes ("\r\n")) = some [strBytes ("\r\n")] ∧
    (∀ l ∈ [strBytes ("\r\n")], isConnectionHeader l = false ∧ isProxyHeader l = false) ∧
    (parseHeaderFields { isConnectionClose := false, contentLength := 0 }
      { data := strBytes ("\r\n"), pos := 0, nbuf := 0 } { cap := 100, data := [] } 4).2.2.2 =
      PResult.ok ∧
    (parseHeaderFields { isConnectionClose := false, contentLength := 0 }
      { data := strBytes ("\r\n"), pos := 0, nbuf := 0 } { cap := 100, data := [] } 4).2.2.1.data =
      [] ∧
    ([] : List Nat) ≠ (strBytes ("\r\n")).take 2 :=
  ⟨by decide, by decide, by rfl, by rfl, by decide⟩

/-- C5 (amended): for a header block of at least two lines (at least one
header line before the terminator) with no Connection line and no proxy
header line, a successful scan started from an empty target buffer emits
exactly the block bytes, terminators and terminating empty line included.
The empty block, a terminator alone, is emitted as nothing instead. -/
theorem c5_amended_theorem (h : Header) (r : Reader) (buf : ByteBuffer) (fuel : Nat)
    (hq : Header) (rq : Reader) (bq : ByteBuffer) (bls : List (List Nat))
    (hwf : r.pos + r.nbuf ≤ r.data.length)
    (hbuf : buf.data = [])
    (hbl : blockLines (r.data.drop r.pos) = some bls)
    (hlen : 2 ≤ bls.length)
    (hgood : ∀ l ∈ bls, isConnectionHeader l = false ∧ isProxyHeader l = false)
    (heq : parseHeaderFields h r buf fuel = (hq, rq, bq, .ok)) :
    bq.data = bls.flatten := by
  unfold parseHeaderFields at heq
  exact parseAux_c5 bls fuel 1 h r buf hq rq bq hwf hbuf hbl hlen hgood heq

/-- C5 witness: a two-line block round-trips, the emitted buffer holding
exactly the block bytes. -/
theorem c5_witness :
    ({ cap := 100, data := strBytes ("A: b\r\n\r\n") } : ByteBuffer).data =
      ([strBytes ("A: b\r\n"), strBytes ("\r\n")] : List (List Nat)).flatten :=
  c5_amended_theorem { isConnectionClose := false, contentLength := 0 }
    { data := strBytes ("A: b\r\n\r\n"), pos := 0, nbuf := 0 } { cap := 100, data := [] } 12
    { isConnectionClose := false, contentLength := 0 }
    { data := strBytes ("A: b\r\n\r\n"), pos := 8, nbuf := 0 }
    { cap := 100, data := strBytes ("A: b\r\n\r\n") }
    [strBytes ("A: b\r\n"), strBytes ("\r\n")]
    (by decide) (by rfl) (by decide) (by decide) (by decide) (by rfl)

/-- C6: every error return of ParseHeaderFields hands back the target buffer
reset to empty, whichever error it is and whatever the buffer held before. -/
theorem c6_theorem (h : Header) (r : Reader) (buf : ByteBuffer) (fuel : Nat)
    (hq : Header) (rq : Reader) (bq : ByteBuffer) (e : HErr)
    (heq : parseHeaderFields h r buf fuel = (hq, rq, bq, .err e)) :
    bq.data = [] := by
  unfold parseHeaderFields at heq
  exact parseAux_err_buf fuel 1 h r buf hq rq bq e heq

/-- C6 witness: on an empty stream the scanner fails with the unexpected-eof
error and the target buffer, which held three bytes, comes back empty. -/
theorem c6_witness :
    ({ cap := 8, data := [] } : ByteBuffer).data = ([] : List Nat) :=
  c6_theorem { isConnectionClose := false, contentLength := 3 }
    { data := [], pos := 0, nbuf := 0 } { cap := 8, data := [1, 2, 3] } 3
    { isConnectionClose := false, contentLength := 3 }
    { data := [], pos := 0, nbuf := 0 } { cap := 8, data := [] } HErr.unexpectedEOF
    (by rfl)

/-- C4: a successfully parsed block whose last length-setting Content-Length
line carries the positive value N, and which contains no Transfer-Encoding
line, leaves the stored contentLength at exactly N, the decimal after the
first colon with surrounding white space trimmed. -/
theorem c4_theorem (h : Header) (w : List Nat) (buf : ByteBuffer)
    (hr : Header) (br : ByteBuffer) (m : List Nat) (L : Nat)
    (xs ys : List (List Nat)) (cl : List Nat) (N : Int)
    (heq : readHeaders h w buf = (hr, br, m, Except.ok L))
    (hdec : scanLines w = xs ++ cl :: ys)
    (hcl : setsLength cl = true)
    (hN : clValue cl = N)
    (hys : ∀ l ∈ ys, setsLength l = false)
    (hte : ∀ l ∈ scanLines w, isTransferEncodingHeader l = false) :
    hr.contentLength = N := by
  obtain ⟨hbl, -, hcase⟩ := readHeaders_ok_spec h w buf hr br m L heq
  rcases hcase with ⟨l0, hl0, hemp, hh, -, -⟩ | ⟨hh, -, -⟩
  · exfalso
    have hmem : cl ∈ scanLines w := by rw [hdec]; simp
    rw [hl0] at hmem
    simp at hmem
    rw [← hmem] at hemp
    unfold isEmptyLine at hemp
    rcases Bool.or_eq_true_iff.mp hemp with h1 | h1
    · have h10 : cl = [10] := by simpa using h1
      rw [h10] at hcl
      exact absurd hcl (by decide)
    · have h1310 : cl = [13, 10] := by simpa using h1
      rw [h1310] at hcl
      exact absurd hcl (by decide)
  · rw [hh, foldl_lineEff_contentLength, hdec, List.foldl_append, List.foldl_cons]
    have hstepcl : framingStep (List.foldl framingStep h.contentLength xs) cl = N := by
      unfold framingStep
      rw [hcl, hN]
      simp
    rw [hstepcl]
    apply foldl_framing_cl
    intro l hl
    exact ⟨hys l hl, hte l (by rw [hdec]; simp [hl])⟩

/-- C4 witness: the block holding one Content-Length 7 line parses to
contentLength 7. -/
theorem c4_witness :
    ({ isConnectionClose := false, contentLength := 7 } : Header).contentLength = (7 : Int) :=
  c4_theorem { isConnectionClose := false, contentLength := 0 }
    (strBytes ("Content-Length: 7\r\n\r\n")) { cap := 100, data := [] }
    { isConnectionClose := false, contentLength := 7 }
    { cap := 100, data := strBytes ("Content-Length: 7\r\n\r\n") }
    (strBytes ("Content-Length: 7\r\n\r\n")) 21
    [] [strBytes ("\r\n")] (strBytes ("Content-Length: 7\r\n")) 7
    (by rfl) (by decide) (by decide) (by decide) (by decide) (by decide)

/-- C8 counterexample: a plain-HTTP request whose hijacker supplies a
response is served from the hijacked reader without consulting the host:
with an empty host it neither returns the session-unavailable error nor
stays free of client effects. -/
theorem c8_counterexample :
    ({ hijacked := some (5, 7, false), hostWithPort := "", routed := false, reqReadNum := 0,
       reqWriteNum := 0, respNum := 0, clientDoErr := false } : DoInput).hostWithPort.length
      = 0 ∧
    (doHandler { hijacked := some (5, 7, false), hostWithPort := "", routed := false,
                 reqReadNum := 0, reqWriteNum := 0, respNum := 0, clientDoErr := false }).2 ≠
      some PErr.sessionUnavailable ∧
    (doHandler { hijacked := some (5, 7, false), hostWithPort := "", routed := false,
                 reqReadNum := 0, reqWriteNum := 0, respNum := 0, clientDoErr := false }).1 ≠
      [] := by
  refine ⟨by decide, ?_, ?_⟩ <;> simp [doHandler]

/-- C8 (amended): when the hijacker supplies no response, a plain-HTTP
request with an empty parsed host, and likewise a raw CONNECT tunnel with an
empty parsed host, return the session-unavailable error with no effect at
all: no token, no dial, no client write, no usage accounting. -/
theorem c8_amended_theorem (d : DoInput) (t : TunnelInput)
    (hd : d.hijacked = none) (hdh : d.hostWithPort.length = 0)
    (hth : t.parsedHostWithPort.length = 0) :
    doHandler d = ([], some PErr.sessionUnavailable) ∧
    tunnelConnect t = ([], some PErr.sessionUnavailable) := by
  constructor
  · unfold doHandler
    rw [hd]
    simp [hdh]
  · unfold tunnelConnect
    simp [hth]

/-- C8 witness: a non-hijacked request and a tunnel, both with an empty host,
end session-unavailable with an empty event trace. -/
theorem c8_witness :
    doHandler { hijacked := none, hostWithPort := "", routed := true, reqReadNum := 1,
                reqWriteNum := 2, respNum := 3, clientDoErr := false } =
      ([], some PErr.sessionUnavailable) ∧
    tunnelConnect { parsedHostWithPort := "", routed := true, dialOk := true, okWriteOk := true,
                    usagePresent := true, outBytes := 4, inBytes := 5, fwdWriteErr := false,
                    fwdReadErr := false } =
      ([], some PErr.sessionUnavailable) :=
  c8_amended_theorem
    { hijacked := none, hostWithPort := "", routed := true, reqReadNum := 1,
      reqWriteNum := 2, respNum := 3, clientDoErr := false }
    { parsedHostWithPort := "", routed := true, dialOk := true, okWriteOk := true,
      usagePresent := true, outBytes := 4, inBytes := 5, fwdWriteErr := false,
      fwdReadErr := false }
    (by rfl) (by decide) (by decide)

/-- C9: in the MITM path, once the certificate is signed, an empty recorded
server name makes decryptConnect fail with the no-sni error, and its event
trace never reads the decrypted request, never runs the nested do, and never
contacts the origin. -/
theorem c9_theorem (i : DecryptInput) (hs : i.signOk = true) (hsni : i.sni.length = 0) :
    (decryptConnect i).2 = some PErr.noSNI ∧
    ∀ e ∈ (decryptConnect i).1, e ≠ PEvent.readDecryptedRequest ∧ e ≠ PEvent.runDo ∧
      contactsOrigin e = false := by
  obtain ⟨signOk, up, okW, hsOk, sni, readReq, doErr⟩ := i
  simp only at hs hsni
  subst hs
  cases okW <;> cases hsOk <;> cases up <;>
    simp [decryptConnect, hsni, contactsOrigin]

/-- C9 witness: with the certificate signed and an empty server name after
the handshake, the handler ends no-sni having only written the 200 reply and
accounted it. -/
theorem c9_witness :
    (decryptConnect { signOk := true, usagePresent := true, okWriteOk := true,
                      handshakeOk := true, sni := "", readReq := some 4, doErr := none }).2 =
      some PErr.noSNI ∧
    ∀ e ∈ (decryptConnect { signOk := true, usagePresent := true, okWriteOk := true,
                            handshakeOk := true, sni := "", readReq := some 4,
                            doErr := none }).1,
      e ≠ PEvent.readDecryptedRequest ∧ e ≠ PEvent.runDo ∧ contactsOrigin e = false :=
  c9_theorem
    { signOk := true, usagePresent := true, okWriteOk := true, handshakeOk := true,
      sni := "", readReq := some 4, doErr := none }
    (by rfl) (by decide)

/-- C10 counterexample: a parsed block with a Transfer-Encoding identity line
followed by a Content-Length 3 line ends with ContentLength() returning 3,
not 0, and IsBodyIdentity() false: a later Content-Length line overrides the
transfer-encoding marker. -/
theorem c10_counterexample :
    (readHeaders { isConnectionClose := false, contentLength := 0 }
      (strBytes ("Transfer-Encoding: identity\r\nContent-Length: 3\r\n\r\n"))
      { cap := 100, data := [] }).2.2.2 = Except.ok 50 ∧
    Header.ContentLength (readHeaders { isConnectionClose := false, contentLength := 0 }
      (strBytes ("Transfer-Encoding: identity\r\nContent-Length: 3\r\n\r\n"))
      { cap := 100, data := [] }).1 = 3 ∧
    Header.IsBodyIdentity (readHeaders { isConnectionClose := false, contentLength := 0 }
      (strBytes ("Transfer-Encoding: identity\r\nContent-Length: 3\r\n\r\n"))
      { cap := 100, data := [] }).1 = false :=
  ⟨by rfl, by decide, by decide⟩

/-- C10 (amended): the public accessor clamps at zero: ContentLength() is
never negative, returns the stored value exactly when that value is
positive, and returns 0 otherwise; in particular whenever IsBodyChunked() or
IsBodyIdentity() holds, ContentLength() is 0.  After parsing, the framing
predicates hold only while no later line overrode the stored marker. -/
theorem c10_amended_theorem (h : Header) :
    0 ≤ Header.ContentLength h ∧
    (0 < h.contentLength → Header.ContentLength h = h.contentLength) ∧
    (h.contentLength ≤ 0 → Header.ContentLength h = 0) ∧
    (Header.IsBodyChunked h = true → Header.ContentLength h = 0) ∧
    (Header.IsBodyIdentity h = true → Header.ContentLength h = 0) := by
  unfold Header.ContentLength Header.IsBodyChunked Header.IsBodyIdentity
  refine ⟨?_, ?_, ?_, ?_, ?_⟩
  · by_cases hp : 0 < h.contentLength
    · simp [hp]
      omega
    · simp [hp]
  · intro hp
    simp [hp]
  · intro hp
    have hnp : ¬ 0 < h.contentLength := by omega
    simp [hnp]
  · intro hc
    simp at hc
    rw [hc]
    rfl
  · intro hc
    simp at hc
    rw [hc]
    rfl

/-- C10 witness: a chunked header state reports ContentLength() zero. -/
theorem c10_witness :
    0 ≤ Header.ContentLength { isConnectionClose := false, contentLength := -1 } ∧
    (0 < ({ isConnectionClose := false, contentLength := -1 } : Header).contentLength →
      Header.ContentLength { isConnectionClose := false, contentLength := -1 } = -1) ∧
    (({ isConnectionClose := false, contentLength := -1 } : Header).contentLength ≤ 0 →
      Header.ContentLength { isConnectionClose := false, contentLength := -1 } = 0) ∧
    (Header.IsBodyChunked { isConnectionClose := false, contentLength := -1 } = true →
      Header.ContentLength { isConnectionClose := false, contentLength := -1 } = 0) ∧
    (Header.IsBodyIdentity { isConnectionClose := false, contentLength := -1 } = true →
      Header.ContentLength { isConnectionClose := false, contentLength := -1 } = 0) :=
  c10_amended_theorem { isConnectionClose := false, contentLength := -1 }

/-- C7: in the raw CONNECT tunnel, a dial failure makes the handler write
exactly the 501 reply to the client, account exactly its byte count as
outgoing when a usage sink is present, and end with the dial error; a
successful dial makes the handler write the 200 reply as its first client
write, before any tunnelled byte moves in either direction. -/
theorem c7_theorem (i : TunnelInput) (hhost : i.parsedHostWithPort.length ≠ 0) :
    (i.dialOk = false →
      clientWrites (tunnelConnect i).1 = [httpTunnelMadeErrorBytes] ∧
      (i.usagePresent = true →
        outUsageTotal (tunnelConnect i).1 = httpTunnelMadeErrorBytes.length) ∧
      (tunnelConnect i).2 = some PErr.dialFailed) ∧
    (i.dialOk = true →
      ∃ pre post, (tunnelConnect i).1 = pre ++ PEvent.clientWrite httpTunnelMadeOkBytes :: post ∧
        ∀ e ∈ pre, isTunnelEvent e = false ∧ isClientWrite e = false) := by
  obtain ⟨host, routed, dialOk, okWriteOk, usagePresent, outB, inB, fwdW, fwdR⟩ := i
  simp only at hhost ⊢
  have hh : (host.length == 0) = false := by simpa using hhost
  constructor
  · intro hdial
    subst hdial
    cases routed <;> cases usagePresent <;>
      simp [tunnelConnect, hh, clientWrites, outUsageTotal, usageFlush,
        httpTunnelMadeErrorBytes, httpTunnelMadeOkBytes]
  · intro hdial
    subst hdial
    cases routed
    · refine ⟨[PEvent.dialOrigin], ?_, ?_, ?_⟩
      · exact (if okWriteOk then
          ([PEvent.clientToTunnel outB, PEvent.tunnelToClient inB] ++
            usageFlush usagePresent false outB (httpTunnelMadeOkBytes.length + inB) inB outB)
          else usageFlush usagePresent false 0 0 0 0)
      · cases okWriteOk <;> cases fwdW <;> cases fwdR <;>
          simp [tunnelConnect, hh, usageFlush]
      · intro e he
        simp at he
        subst he
        exact ⟨rfl, rfl⟩
    · refine ⟨[PEvent.acquireToken, PEvent.makeTunnel], ?_, ?_, ?_⟩
      · exact (if okWriteOk then
          ([PEvent.clientToTunnel outB, PEvent.tunnelToClient inB] ++
            usageFlush usagePresent true outB (httpTunnelMadeOkBytes.length + inB) inB outB ++
            [PEvent.releaseToken])
          else usageFlush usagePresent true 0 0 0 0 ++ [PEvent.releaseToken])
      · cases okWriteOk <;> cases fwdW <;> cases fwdR <;>
          simp [tunnelConnect, hh, usageFlush]
      · intro e he
        simp at he
        rcases he with he | he <;> subst he <;> exact ⟨rfl, rfl⟩

/-- C7 witness: an unrouted CONNECT with a present usage sink whose dial
fails writes the 501 reply only, accounts its 28 bytes, and fails; had the
dial succeeded, the 200 reply would have preceded all tunnelled bytes. -/
theorem c7_witness :
    ((false = false →
      clientWrites (tunnelConnect { parsedHostWithPort := "h:443", routed := false,
                                    dialOk := false, okWriteOk := true, usagePresent := true,
                                    outBytes := 0, inBytes := 0, fwdWriteErr := false,
                                    fwdReadErr := false }).1 = [httpTunnelMadeErrorBytes] ∧
      (true = true →
        outUsageTotal (tunnelConnect { parsedHostWithPort := "h:443", routed := false,
                                       dialOk := false, okWriteOk := true, usagePresent := true,
                                       outBytes := 0, inBytes := 0, fwdWriteErr := false,
                                       fwdReadErr := false }).1 =
          httpTunnelMadeErrorBytes.length) ∧
      (tunnelConnect { parsedHostWithPort := "h:443", routed := false, dialOk := false,
                       okWriteOk := true, usagePresent := true, outBytes := 0, inBytes := 0,
                       fwdWriteErr := false, fwdReadErr := false }).2 =
        some PErr.dialFailed) ∧
    (false = true →
      ∃ pre post,
        (tunnelConnect { parsedHostWithPort := "h:443", routed := false, dialOk := false,
                         okWriteOk := true, usagePresent := true, outBytes := 0, inBytes := 0,
                         fwdWriteErr := false, fwdReadErr := false }).1 =
          pre ++ PEvent.clientWrite httpTunnelMadeOkBytes :: post ∧
        ∀ e ∈ pre, isTunnelEvent e = false ∧ isClientWrite e = false)) :=
  c7_theorem { parsedHostWithPort := "h:443", routed := false, dialOk := false,
               okWriteOk := true, usagePresent := true, outBytes := 0, inBytes := 0,
               fwdWriteErr := false, fwdReadErr := false }
    (by decide)
